import Mathlib

/-!
Verification model of `c10/core/SymInt.cpp`: the tagged single-word symbolic
integer scalar of the repository, together with the normalize-then-dispatch
protocol over an instrumented reference-counted backend.

The scalar layer (`normalize_symints`, the arithmetic and comparison
operators, `toSymIntNodeImpl`, `toSymInt`) is translated from
`src/c10/core/SymInt.cpp`.  The header `SymInt.h` (tag constants,
`is_symbolic`, `toSymIntNodeImplUnowned`, the literal constructor and the
copy/destroy discipline of the scalar) and the backend node type
(`SymIntNodeImpl`) are not part of `src/`; those pieces are modelled from the
spec, and each such definition is marked accordingly.

C++ reference counting is made explicit: every `intrusive_ptr` increment and
decrement performed by the code (including the ones hidden in parameter
copies, temporaries and destructors) appears as an explicit `incref`/`decref`
on a state that carries the node heap, the reference counts, an allocation
cursor and an instrumentation log of backend calls.
-/

set_option maxRecDepth 8192
set_option maxHeartbeats 2000000

namespace SymIntSpec

/-- Two's-complement wraparound into the signed 64-bit range, modelling the
result of C++ `int64_t` arithmetic. -/
def wrap64 (x : Int) : Int := (x + 2 ^ 63) % 2 ^ 64 - 2 ^ 63

/-- The unsigned 64-bit bit pattern of a signed value
(`static_cast<uint64_t>`). -/
def u64 (x : Int) : Nat := (x % 2 ^ 64).toNat

/-- Reading an unsigned 64-bit bit pattern back as a signed 64-bit value
(`static_cast<int64_t>`). -/
def toInt64 (n : Nat) : Int := if n < 2 ^ 63 then (n : Int) else (n : Int) - 2 ^ 64

/-- The node-interface operations the scalar layer dispatches to
(spec section 6 lists the contract; the dispatch calls appear in
`SymInt.cpp`). -/
inductive NOp where
  | add | sub | mul | floordiv | mod | neg | min | max
  | eq | ne | lt | le | gt | ge
deriving DecidableEq, Repr

/-- Modelled from the spec: the body of a backend node of the instrumented
reference backend (section 8 "instrumented backend").  `atom` is a leaf node
wrapping an unknown whose hidden value is `v`; `wrapLit` is the node produced
by the `wrap` literal factory; `bin`/`un` record a node-level operation
applied to operand node addresses. -/
inductive NodeExpr where
  | atom (v : Int)
  | wrapLit (v : Int)
  | bin (op : NOp) (l r : Nat)
  | un (op : NOp) (a : Nat)
deriving DecidableEq, Repr

/-- Instrumentation events recorded by the backend: a call of the `wrap`
literal factory (receiver node and literal), a node-level operation call, and
a `bool_` coercion call. -/
inductive BEvent where
  | wrapCall (recv : Nat) (lit : Int)
  | opCall (op : NOp)
  | boolCall (e : Nat)
deriving DecidableEq, Repr

/-- The backend state: the node heap (address `0` is the null handle and is
never allocated), the per-address reference counts, the next fresh address,
and the instrumentation log (most recent event first). -/
@[ext]
structure St where
  nodes : Nat → Option NodeExpr
  rc : Nat → Nat
  next : Nat
  log : List BEvent

/-- Reference-count increment of `intrusive_ptr` (copying an owning
handle). -/
def incref (a : Nat) (s : St) : St :=
  { s with rc := fun b => if b = a then s.rc a + 1 else s.rc b }

/-- Reference-count decrement of `intrusive_ptr` (destroying an owning
handle); when the count reaches zero the node is freed. -/
def decref (a : Nat) (s : St) : St :=
  { s with
    rc := fun b => if b = a then s.rc a - 1 else s.rc b,
    nodes := fun b => if b = a ∧ s.rc a = 1 then none else s.nodes b }

/-- Record an instrumentation event. -/
def pushLog (e : BEvent) (s : St) : St := { s with log := e :: s.log }

/-- Allocate a fresh backend node with reference count 1 (the backend returns
a new owning handle to it). -/
def allocNode (e : NodeExpr) (s : St) : Nat × St :=
  (s.next,
   { nodes := fun b => if b = s.next then some e else s.nodes b,
     rc := fun b => if b = s.next then 1 else s.rc b,
     next := s.next + 1,
     log := s.log })

/-- Modelled from the spec: the backend `wrap` literal factory
(`common->wrap(lit)`): embeds a literal into the receiver's backend family,
returning a new owning handle; instrumented with a `wrapCall` event. -/
def wrap (recv : Nat) (lit : Int) (s : St) : Nat × St :=
  allocNode (.wrapLit lit) (pushLog (.wrapCall recv lit) s)

/-- Modelled from the spec: a binary node-level operation
(`l->op(r)`): produces a new node recording the operation, returning a new
owning handle; instrumented with an `opCall` event. -/
def nodeBin (op : NOp) (l r : Nat) (s : St) : Nat × St :=
  allocNode (.bin op l r) (pushLog (.opCall op) s)

/-- Modelled from the spec: a unary node-level operation (`a->neg()`). -/
def nodeUn (op : NOp) (a : Nat) (s : St) : Nat × St :=
  allocNode (.un op a) (pushLog (.opCall op) s)

/-- Modelled from the spec: the value denoted by a node of the instrumented
backend (fuel-indexed evaluation of the expression DAG; backend arithmetic is
exact integer arithmetic, `floordiv` floors, comparisons are not integer
valued). -/
def evalA (nodes : Nat → Option NodeExpr) : Nat → Nat → Option Int
  | 0, _ => none
  | fuel + 1, a =>
    match nodes a with
    | none => none
    | some e =>
      match e with
      | .atom v => some v
      | .wrapLit v => some v
      | .un op b =>
        match evalA nodes fuel b with
        | some vb => match op with | .neg => some (-vb) | _ => none
        | none => none
      | .bin op l r =>
        match evalA nodes fuel l, evalA nodes fuel r with
        | some vl, some vr =>
          match op with
          | .add => some (vl + vr)
          | .sub => some (vl - vr)
          | .mul => some (vl * vr)
          | .floordiv => some (Int.fdiv vl vr)
          | .mod => some (Int.emod vl vr)
          | .min => some (min vl vr)
          | .max => some (max vl vr)
          | _ => none
        | _, _ => none

/-- Truth value of a comparison operation on two integers (used by the
instrumented backend to resolve a symbolic boolean). -/
def cmpSem (op : NOp) (x y : Int) : Bool :=
  match op with
  | .eq => x == y
  | .ne => x != y
  | .lt => decide (x < y)
  | .le => decide (x ≤ y)
  | .gt => decide (y < x)
  | .ge => decide (y ≤ x)
  | _ => false

/-- The boolean the instrumented backend computes when forcing a comparison
node with operand addresses `l`, `r` over heap `nodes` with fuel `fuel`. -/
def evalCmp (nodes : Nat → Option NodeExpr) (fuel : Nat) (op : NOp) (l r : Nat) : Bool :=
  match evalA nodes fuel l, evalA nodes fuel r with
  | some vl, some vr => cmpSem op vl vr
  | _, _ => false

/-- The concrete boolean `bool_()` resolves for the node at address `e`. -/
def boolVal (e : Nat) (s : St) : Bool :=
  match s.nodes e with
  | some (.bin op l r) => evalCmp s.nodes s.next op l r
  | _ => false

/-- Modelled from the spec: `bool_()` of the instrumented backend — force a
boolean-like comparison node to a concrete boolean by evaluating its two
operand nodes; instrumented with a `boolCall` event. -/
def boolForce (e : Nat) (s : St) : Bool × St :=
  (boolVal e s, pushLog (.boolCall e) s)

/-- The scalar: a single signed 64-bit word (`int64_t data_`). -/
structure SymInt where
  data_ : Int
deriving DecidableEq, Repr

instance : Inhabited SymInt := ⟨⟨0⟩⟩

/-- Modelled from the spec: the discriminant test of `SymInt.h`
(`(MASK & static_cast<uint64_t>(data_)) == IS_SYM` with
`MASK = (1 << 63) | (1 << 62)` and `IS_SYM = 1 << 63`): the word is a packed
node handle exactly when its top two bits are `10`, i.e. when the unsigned
pattern divided by `2^62` equals `2`. -/
def SymInt.is_symbolic (x : SymInt) : Bool := u64 x.data_ / 2 ^ 62 == 2

/-- `as_int_unchecked()`: the raw stored word. -/
def SymInt.as_int_unchecked (x : SymInt) : Int := x.data_

/-- Modelled from the spec: `toSymIntNodeImplUnowned()` of `SymInt.h` — decode
the node address stored in the word by clearing the two discriminant bits
(`data_ & ~MASK`, i.e. the pattern modulo `2^62`), without touching the
reference count. -/
def SymInt.toSymIntNodeImplUnowned (x : SymInt) : Nat := u64 x.data_ % 2 ^ 62

/-- `SymInt::toSymInt` (SymInt.cpp lines 33-38): pack an owning node handle
into a tagged word, consuming the caller's ownership
(`sin_sp.release()` transfers the reference count unit into the word):
`rep = (ptr & ~MASK) | IS_SYM`, stored as `int64_t`. -/
def SymInt.toSymInt (a : Nat) : SymInt := ⟨toInt64 (a % 2 ^ 62 + 2 ^ 63)⟩

/-- `SymInt::toSymIntNodeImpl` (SymInt.cpp lines 28-31):
`TORCH_CHECK(is_symbolic())` then `SymIntNode::reclaim_copy(...)`, i.e. a new
owning handle to the decoded address (reference count incremented), leaving
the scalar's own stored ownership untouched.  The `TORCH_CHECK` failure on a
concrete scalar is modelled by `none`. -/
def SymInt.toSymIntNodeImpl (x : SymInt) (s : St) : Option (Nat × St) :=
  if x.is_symbolic then
    some (x.toSymIntNodeImplUnowned, incref x.toSymIntNodeImplUnowned s)
  else none

/-- Total wrapper for the call sites of `toSymIntNodeImpl` that are guarded by
`is_symbolic()` in the source (the default branch is unreachable there). -/
def toNode (x : SymInt) (s : St) : Nat × St := (x.toSymIntNodeImpl s).getD (0, s)

/-- Modelled from the spec: the copy construction of a scalar (data model
lifecycle): copying a symbolic scalar produces an independent owning
reference (the count is incremented); copying a concrete scalar is a plain
word copy. -/
def scalarCopy (x : SymInt) (s : St) : St :=
  if x.is_symbolic then incref x.toSymIntNodeImplUnowned s else s

/-- Modelled from the spec: the destruction of a scalar (data model
lifecycle): a symbolic scalar releases the reference count unit its word
holds; destroying a concrete scalar does nothing. -/
def scalarDestroy (x : SymInt) (s : St) : St :=
  if x.is_symbolic then decref x.toSymIntNodeImplUnowned s else s

/-- `normalize_symints` (SymInt.cpp lines 8-26).  Both scalars are taken by
value, so the by-value parameter copies and their end-of-scope destruction
are part of the function's reference-count traffic.  For each operand that is
already symbolic a new owning handle is obtained through
`toSymIntNodeImpl()`; `common` is the raw pointer of the first available
handle (left preference: `a ? a.get() : b.get()`); each missing handle is
produced by `common->wrap(...)` on the operand's raw word.  The stray
statement `a_.toSymInt(a); //` packs a *copy* of the handle into a temporary
scalar that is destroyed immediately (a net no-op modelled by the
`incref`/`decref` pair). -/
def normalize_symints (a0 b0 : SymInt) (s : St) : (Nat × Nat) × St :=
  let s := scalarCopy a0 s
  let s := scalarCopy b0 s
  let (a, s) := if a0.is_symbolic then toNode a0 s else (0, s)
  let (b, s) := if b0.is_symbolic then toNode b0 s else (0, s)
  let common := if a ≠ 0 then a else b
  let (a, s) :=
    if a = 0 then
      let (w, s) := wrap common a0.as_int_unchecked s
      let s := incref w s
      let s := decref w s
      (w, s)
    else (a, s)
  let (b, s) :=
    if b = 0 then
      let (w, s) := wrap common b0.as_int_unchecked s
      let s := incref w s
      let s := decref w s
      (w, s)
    else (b, s)
  let s := scalarDestroy b0 s
  let s := scalarDestroy a0 s
  ((a, b), s)

/-- The concrete fast path of each binary arithmetic operator of
`SymInt.cpp`: plain C++ `int64_t` computation on the stored words
(`data_ + sci.data_`, ..., `data_ / sci.data_` truncates toward zero,
`data_ % sci.data_` is the C++ remainder, `std::min`/`std::max`). -/
def binConc (op : NOp) (x y : Int) : Int :=
  match op with
  | .add => wrap64 (x + y)
  | .sub => wrap64 (x - y)
  | .mul => wrap64 (x * y)
  | .floordiv => wrap64 (Int.tdiv x y)
  | .mod => wrap64 (Int.tmod x y)
  | .min => min x y
  | .max => max x y
  | _ => 0

/-- The shared shape of the binary arithmetic operators of `SymInt.cpp`
(each operator repeats this pattern inline): if neither operand is symbolic,
compute directly on the words; otherwise copy the by-value right operand,
normalize both operands to node handles, invoke the node-level operation,
pack the resulting handle via `toSymInt`, and run the destructors of the
handle array and of the by-value parameter. -/
def SymInt.binArith (op : NOp) (x sci : SymInt) (s : St) : SymInt × St :=
  if !x.is_symbolic && !sci.is_symbolic then
    (⟨binConc op x.data_ sci.data_⟩, s)
  else
    let s := scalarCopy sci s
    let (p, s) := normalize_symints x sci s
    let (r, s) := nodeBin op p.1 p.2 s
    let y := SymInt.toSymInt r
    let s := decref p.2 s
    let s := decref p.1 s
    let s := scalarDestroy sci s
    (y, s)

/-- `SymInt::operator+` (SymInt.cpp lines 55-61). -/
def SymInt.add (x y : SymInt) (s : St) : SymInt × St := SymInt.binArith .add x y s

/-- `SymInt::operator-` (SymInt.cpp lines 63-69). -/
def SymInt.sub (x y : SymInt) (s : St) : SymInt × St := SymInt.binArith .sub x y s

/-- `SymInt::operator*` (SymInt.cpp lines 71-77). -/
def SymInt.mul (x y : SymInt) (s : St) : SymInt × St := SymInt.binArith .mul x y s

/-- `SymInt::operator/` (SymInt.cpp lines 79-85): concrete path is C++
`data_ / sci.data_` (truncating), symbolic path dispatches `floordiv`. -/
def SymInt.div (x y : SymInt) (s : St) : SymInt × St := SymInt.binArith .floordiv x y s

/-- `SymInt::operator%` (SymInt.cpp lines 87-93). -/
def SymInt.rem (x y : SymInt) (s : St) : SymInt × St := SymInt.binArith .mod x y s

/-- `SymInt::min` (SymInt.cpp lines 139-145). -/
def SymInt.minOp (x y : SymInt) (s : St) : SymInt × St := SymInt.binArith .min x y s

/-- `SymInt::max` (SymInt.cpp lines 146-152). -/
def SymInt.maxOp (x y : SymInt) (s : St) : SymInt × St := SymInt.binArith .max x y s

/-- The concrete fast path of each comparison operator of `SymInt.cpp`:
plain comparison of the stored words. -/
def cmpConc (op : NOp) (x y : Int) : Bool := cmpSem op x y

/-- The shared shape of the comparison operators of `SymInt.cpp` (each
operator repeats this pattern inline): if neither operand is symbolic,
compare the words directly; otherwise copy the by-value right operand,
normalize, invoke the node-level comparison (`res[0]->op(res[1])`), coerce
the resulting boolean-like node with `bool_()`, and run the destructors of
the temporary comparison-node handle, the handle array and the by-value
parameter. -/
def SymInt.cmp (op : NOp) (x sci : SymInt) (s : St) : Bool × St :=
  if !x.is_symbolic && !sci.is_symbolic then
    (cmpConc op x.data_ sci.data_, s)
  else
    let s := scalarCopy sci s
    let (p, s) := normalize_symints x sci s
    let (e, s) := nodeBin op p.1 p.2 s
    let (r, s) := boolForce e s
    let s := decref e s
    let s := decref p.2 s
    let s := decref p.1 s
    let s := scalarDestroy sci s
    (r, s)

/-- `SymInt::operator==` (SymInt.cpp lines 95-101). -/
def SymInt.eq (x y : SymInt) (s : St) : Bool × St := SymInt.cmp .eq x y s

/-- `SymInt::operator!=` (SymInt.cpp lines 103-105): literally
`!(*this == sci)` — the by-value parameter is copied once more for the inner
call, the equality operator runs, and the result is negated.  No node-level
`ne` call occurs. -/
def SymInt.ne (x sci : SymInt) (s : St) : Bool × St :=
  let s := scalarCopy sci s
  let (r, s) := SymInt.eq x sci s
  let s := scalarDestroy sci s
  (!r, s)

/-- `SymInt::operator<` (SymInt.cpp lines 107-113). -/
def SymInt.lt (x y : SymInt) (s : St) : Bool × St := SymInt.cmp .lt x y s

/-- `SymInt::operator<=` (SymInt.cpp lines 115-121). -/
def SymInt.le (x y : SymInt) (s : St) : Bool × St := SymInt.cmp .le x y s

/-- `SymInt::operator>` (SymInt.cpp lines 123-129). -/
def SymInt.gt (x y : SymInt) (s : St) : Bool × St := SymInt.cmp .gt x y s

/-- `SymInt::operator>=` (SymInt.cpp lines 131-137). -/
def SymInt.ge (x y : SymInt) (s : St) : Bool × St := SymInt.cmp .ge x y s

/-- Unary `operator-` (SymInt.cpp lines 199-205).  The scalar is taken by
value; if symbolic, `toSymIntNodeImpl()` produces a temporary owning handle,
`->neg()` is dispatched, the temporary handle is destroyed and the result is
packed; otherwise the word is negated (`SymInt(-s.as_int_unchecked())`). -/
def SymInt.neg (x : SymInt) (s : St) : SymInt × St :=
  let s := scalarCopy x s
  if x.is_symbolic then
    let (h, s) := toNode x s
    let (r, s) := nodeUn .neg h s
    let y := SymInt.toSymInt r
    let s := decref h s
    let s := scalarDestroy x s
    (y, s)
  else
    let s := scalarDestroy x s
    (⟨wrap64 (-x.data_)⟩, s)

/-- The C++ expression `-(-x) == x`: both negation temporaries live until the
end of the full expression and are destroyed after the comparison returns. -/
def negNegEq (x : SymInt) (s : St) : Bool × St :=
  let (t1, s) := SymInt.neg x s
  let (t2, s) := SymInt.neg t1 s
  let (r, s) := SymInt.eq t2 x s
  let s := scalarDestroy t2 s
  let s := scalarDestroy t1 s
  (r, s)



theorem is_symbolic_toSymInt (a : Nat) : (SymInt.toSymInt a).is_symbolic = true := by
  simp only [SymInt.toSymInt, SymInt.is_symbolic, u64, toInt64, beq_iff_eq]
  split <;> omega

theorem unowned_toSymInt (a : Nat) (h : a < 2 ^ 62) :
    (SymInt.toSymInt a).toSymIntNodeImplUnowned = a := by
  simp only [SymInt.toSymInt, SymInt.toSymIntNodeImplUnowned, u64, toInt64]
  split <;> omega

theorem is_symbolic_small (v : Int) (h1 : -(2 ^ 62) < v) (h2 : v < 2 ^ 62) :
    (SymInt.mk v).is_symbolic = false := by
  simp only [SymInt.is_symbolic, u64, beq_eq_false_iff_ne, ne_eq]
  omega

theorem rc_incref (a : Nat) (s : St) (b : Nat) :
    (incref a s).rc b = if b = a then s.rc b + 1 else s.rc b := by
  simp only [incref]; split_ifs with h <;> simp [h]

theorem nodes_incref (a : Nat) (s : St) : (incref a s).nodes = s.nodes := rfl

theorem next_incref (a : Nat) (s : St) : (incref a s).next = s.next := rfl

theorem log_incref (a : Nat) (s : St) : (incref a s).log = s.log := rfl

theorem rc_decref (a : Nat) (s : St) (b : Nat) :
    (decref a s).rc b = if b = a then s.rc b - 1 else s.rc b := by
  simp only [decref]; split_ifs with h <;> simp [h]

theorem nodes_decref (a : Nat) (s : St) (b : Nat) :
    (decref a s).nodes b = if b = a ∧ s.rc a = 1 then none else s.nodes b := rfl

theorem next_decref (a : Nat) (s : St) : (decref a s).next = s.next := rfl

theorem log_decref (a : Nat) (s : St) : (decref a s).log = s.log := rfl

theorem normalize_run_symsym (a0 b0 : SymInt) (s : St)
    (ha : a0.is_symbolic = true) (hb : b0.is_symbolic = true)
    (hp : a0.toSymIntNodeImplUnowned ≠ 0) (hq : b0.toSymIntNodeImplUnowned ≠ 0) :
    normalize_symints a0 b0 s =
      ((a0.toSymIntNodeImplUnowned, b0.toSymIntNodeImplUnowned),
       incref b0.toSymIntNodeImplUnowned (incref a0.toSymIntNodeImplUnowned s)) := by
  simp only [normalize_symints, scalarCopy, scalarDestroy, toNode, SymInt.toSymIntNodeImpl,
    ha, hb, if_true, ite_true, Option.getD_some, ne_eq, hp, hq, not_false_iff, if_neg,
    ite_false, if_pos]
  refine congrArg (Prod.mk _) ?_
  refine St.ext ?_ ?_ ?_ ?_
  · funext b
    simp only [nodes_decref, nodes_incref, rc_incref, rc_decref]
    split_ifs <;> first | rfl | omega
  · funext b
    simp only [rc_incref, rc_decref]
    split_ifs <;> omega
  · simp only [next_decref, next_incref]
  · simp only [log_decref, log_incref]

theorem normalize_run_symconc (a0 b0 : SymInt) (s : St)
    (ha : a0.is_symbolic = true) (hb : b0.is_symbolic = false)
    (hp : a0.toSymIntNodeImplUnowned ≠ 0) (hp2 : a0.toSymIntNodeImplUnowned < s.next) :
    normalize_symints a0 b0 s =
      ((a0.toSymIntNodeImplUnowned, s.next),
       { nodes := fun b => if b = s.next then some (.wrapLit b0.data_) else s.nodes b,
         rc := fun b => if b = s.next then 1
           else if b = a0.toSymIntNodeImplUnowned then s.rc b + 1 else s.rc b,
         next := s.next + 1,
         log := .wrapCall a0.toSymIntNodeImplUnowned b0.data_ :: s.log }) := by
  simp only [normalize_symints, scalarCopy, scalarDestroy, toNode, SymInt.toSymIntNodeImpl,
    SymInt.as_int_unchecked, wrap, allocNode, pushLog,
    ha, hb, if_true, ite_true, Option.getD_some, ne_eq, hp, not_false_iff, if_neg,
    ite_false, if_pos, Bool.false_eq_true, if_false]
  refine congrArg (Prod.mk _) ?_
  refine St.ext ?_ ?_ ?_ ?_
  · funext b
    simp only [nodes_decref, nodes_incref, rc_incref, rc_decref, next_incref]
    split_ifs <;> first | rfl | omega
  · funext b
    simp only [rc_incref, rc_decref, next_incref]
    split_ifs <;> omega
  · simp only [next_decref, next_incref]
  · simp only [log_decref, log_incref]

theorem normalize_run_concsym (a0 b0 : SymInt) (s : St)
    (ha : a0.is_symbolic = false) (hb : b0.is_symbolic = true)
    (hq : b0.toSymIntNodeImplUnowned ≠ 0) (hq2 : b0.toSymIntNodeImplUnowned < s.next) :
    normalize_symints a0 b0 s =
      ((s.next, b0.toSymIntNodeImplUnowned),
       { nodes := fun b => if b = s.next then some (.wrapLit a0.data_) else s.nodes b,
         rc := fun b => if b = s.next then 1
           else if b = b0.toSymIntNodeImplUnowned then s.rc b + 1 else s.rc b,
         next := s.next + 1,
         log := .wrapCall b0.toSymIntNodeImplUnowned a0.data_ :: s.log }) := by
  simp only [normalize_symints, scalarCopy, scalarDestroy, toNode, SymInt.toSymIntNodeImpl,
    SymInt.as_int_unchecked, wrap, allocNode, pushLog,
    ha, hb, if_true, ite_true, Option.getD_some, ne_eq, hq, not_false_iff, if_neg,
    ite_false, if_pos, Bool.false_eq_true, if_false, not_true]
  refine congrArg (Prod.mk _) ?_
  refine St.ext ?_ ?_ ?_ ?_
  · funext b
    simp only [nodes_decref, nodes_incref, rc_incref, rc_decref, next_incref]
    split_ifs <;> first | rfl | omega
  · funext b
    simp only [rc_incref, rc_decref, next_incref]
    split_ifs <;> omega
  · simp only [next_decref, next_incref]
  · simp only [log_decref, log_incref]

theorem binArith_run_symsym (op : NOp) (x y : SymInt) (s : St)
    (hx : x.is_symbolic = true) (hy : y.is_symbolic = true)
    (hp0 : x.toSymIntNodeImplUnowned ≠ 0) (hq0 : y.toSymIntNodeImplUnowned ≠ 0)
    (hrp : 0 < s.rc x.toSymIntNodeImplUnowned) (hrq : 0 < s.rc y.toSymIntNodeImplUnowned)
    (hp2 : x.toSymIntNodeImplUnowned < s.next) (hq2 : y.toSymIntNodeImplUnowned < s.next) :
    SymInt.binArith op x y s =
      (SymInt.toSymInt s.next,
       { nodes := fun b => if b = s.next
           then some (.bin op x.toSymIntNodeImplUnowned y.toSymIntNodeImplUnowned)
           else s.nodes b,
         rc := fun b => if b = s.next then 1 else s.rc b,
         next := s.next + 1,
         log := .opCall op :: s.log }) := by
  have hguard : (!x.is_symbolic && !y.is_symbolic) = false := by simp [hx]
  simp only [SymInt.binArith, hguard, Bool.false_eq_true, if_false, ite_false,
    scalarCopy, scalarDestroy, hy, hx, if_true, ite_true]
  rw [normalize_run_symsym x y _ hx hy hp0 hq0]
  simp only [nodeBin, allocNode, pushLog, next_incref, nodes_incref, log_incref]
  refine congrArg (Prod.mk _) ?_
  refine St.ext ?_ ?_ ?_ ?_
  · funext b
    simp only [nodes_decref, nodes_incref, rc_incref, rc_decref]
    split_ifs <;> first | rfl | omega
  · funext b
    simp only [rc_incref, rc_decref]
    split_ifs <;> omega
  · simp only [next_decref, next_incref]
  · simp only [log_decref, log_incref]

theorem binArith_run_symconc (op : NOp) (x y : SymInt) (s : St)
    (hx : x.is_symbolic = true) (hy : y.is_symbolic = false)
    (hp0 : x.toSymIntNodeImplUnowned ≠ 0)
    (hrp : 0 < s.rc x.toSymIntNodeImplUnowned)
    (hp2 : x.toSymIntNodeImplUnowned < s.next) :
    SymInt.binArith op x y s =
      (SymInt.toSymInt (s.next + 1),
       { nodes := fun b => if b = s.next + 1
           then some (.bin op x.toSymIntNodeImplUnowned s.next)
           else if b = s.next then none else s.nodes b,
         rc := fun b => if b = s.next + 1 then 1 else if b = s.next then 0 else s.rc b,
         next := s.next + 2,
         log := .opCall op :: .wrapCall x.toSymIntNodeImplUnowned y.data_ :: s.log }) := by
  have hguard : (!x.is_symbolic && !y.is_symbolic) = false := by simp [hx]
  simp only [SymInt.binArith, hguard, Bool.false_eq_true, if_false, ite_false,
    scalarCopy, scalarDestroy, hy, hx, if_true, ite_true]
  rw [normalize_run_symconc x y _ hx hy hp0 hp2]
  simp only [nodeBin, allocNode, pushLog]
  refine congrArg (Prod.mk _) ?_
  refine St.ext ?_ ?_ ?_ ?_
  · funext b
    simp only [nodes_decref, rc_decref]
    split_ifs <;> first | rfl | omega
  · funext b
    simp only [rc_decref]
    split_ifs <;> omega
  · simp only [next_decref]
  · simp only [log_decref]

theorem binArith_run_concsym (op : NOp) (x y : SymInt) (s : St)
    (hx : x.is_symbolic = false) (hy : y.is_symbolic = true)
    (hq0 : y.toSymIntNodeImplUnowned ≠ 0)
    (hrq : 0 < s.rc y.toSymIntNodeImplUnowned)
    (hq2 : y.toSymIntNodeImplUnowned < s.next) :
    SymInt.binArith op x y s =
      (SymInt.toSymInt (s.next + 1),
       { nodes := fun b => if b = s.next + 1
           then some (.bin op s.next y.toSymIntNodeImplUnowned)
           else if b = s.next then none else s.nodes b,
         rc := fun b => if b = s.next + 1 then 1 else if b = s.next then 0 else s.rc b,
         next := s.next + 2,
         log := .opCall op :: .wrapCall y.toSymIntNodeImplUnowned x.data_ :: s.log }) := by
  have hguard : (!x.is_symbolic && !y.is_symbolic) = false := by simp [hy]
  simp only [SymInt.binArith, hguard, Bool.false_eq_true, if_false, ite_false,
    scalarCopy, scalarDestroy, hy, hx, if_true, ite_true]
  rw [normalize_run_concsym x y _ hx hy hq0]
  · simp only [nodeBin, allocNode, pushLog, next_incref, nodes_incref, log_incref]
    refine congrArg (Prod.mk _) ?_
    refine St.ext ?_ ?_ ?_ ?_
    · funext b
      simp only [nodes_decref, nodes_incref, rc_incref, rc_decref]
      split_ifs <;> first | rfl | omega
    · funext b
      simp only [rc_incref, rc_decref]
      split_ifs <;> omega
    · simp only [next_decref, next_incref]
    · simp only [log_decref, log_incref]
  · simp only [next_incref]
    exact hq2

theorem cmp_run_symsym (op : NOp) (x y : SymInt) (s : St)
    (hx : x.is_symbolic = true) (hy : y.is_symbolic = true)
    (hp0 : x.toSymIntNodeImplUnowned ≠ 0) (hq0 : y.toSymIntNodeImplUnowned ≠ 0)
    (hrp : 0 < s.rc x.toSymIntNodeImplUnowned) (hrq : 0 < s.rc y.toSymIntNodeImplUnowned)
    (hp2 : x.toSymIntNodeImplUnowned < s.next) (hq2 : y.toSymIntNodeImplUnowned < s.next) :
    SymInt.cmp op x y s =
      (evalCmp (fun b => if b = s.next
          then some (.bin op x.toSymIntNodeImplUnowned y.toSymIntNodeImplUnowned)
          else s.nodes b) (s.next + 1) op x.toSymIntNodeImplUnowned y.toSymIntNodeImplUnowned,
       { nodes := fun b => if b = s.next then none else s.nodes b,
         rc := fun b => if b = s.next then 0 else s.rc b,
         next := s.next + 1,
         log := .boolCall s.next :: .opCall op :: s.log }) := by
  have hguard : (!x.is_symbolic && !y.is_symbolic) = false := by simp [hx]
  simp only [SymInt.cmp, hguard, Bool.false_eq_true, if_false, ite_false,
    scalarCopy, scalarDestroy, hy, hx, if_true, ite_true]
  rw [normalize_run_symsym x y _ hx hy hp0 hq0]
  simp only [nodeBin, allocNode, pushLog, boolForce, boolVal, next_incref, nodes_incref, log_incref, eq_self_iff_true, if_true, ite_true]
  refine congrArg₂ Prod.mk ?_ ?_
  · rfl
  · refine St.ext ?_ ?_ ?_ ?_
    · funext b
      simp only [nodes_decref, nodes_incref, rc_incref, rc_decref]
      split_ifs <;> first | rfl | omega
    · funext b
      simp only [rc_incref, rc_decref]
      split_ifs <;> omega
    · simp only [next_decref, next_incref]
    · simp only [log_decref, log_incref]

theorem cmp_run_symconc (op : NOp) (x y : SymInt) (s : St)
    (hx : x.is_symbolic = true) (hy : y.is_symbolic = false)
    (hp0 : x.toSymIntNodeImplUnowned ≠ 0)
    (hrp : 0 < s.rc x.toSymIntNodeImplUnowned)
    (hp2 : x.toSymIntNodeImplUnowned < s.next) :
    SymInt.cmp op x y s =
      (evalCmp (fun b => if b = s.next + 1
          then some (.bin op x.toSymIntNodeImplUnowned s.next)
          else if b = s.next then some (.wrapLit y.data_) else s.nodes b)
          (s.next + 2) op x.toSymIntNodeImplUnowned s.next,
       { nodes := fun b => if b = s.next + 1 then none
           else if b = s.next then none else s.nodes b,
         rc := fun b => if b = s.next + 1 then 0 else if b = s.next then 0 else s.rc b,
         next := s.next + 2,
         log := .boolCall (s.next + 1) :: .opCall op :: .wrapCall x.toSymIntNodeImplUnowned y.data_ :: s.log }) := by
  have hguard : (!x.is_symbolic && !y.is_symbolic) = false := by simp [hx]
  simp only [SymInt.cmp, hguard, Bool.false_eq_true, if_false, ite_false,
    scalarCopy, scalarDestroy, hy, hx, if_true, ite_true]
  rw [normalize_run_symconc x y _ hx hy hp0 hp2]
  simp only [nodeBin, allocNode, pushLog, boolForce, boolVal, eq_self_iff_true, if_true, ite_true]
  refine congrArg₂ Prod.mk ?_ ?_
  · rfl
  · refine St.ext ?_ ?_ ?_ ?_
    · funext b
      simp only [nodes_decref, rc_decref]
      split_ifs <;> first | rfl | omega
    · funext b
      simp only [rc_decref]
      split_ifs <;> omega
    · simp only [next_decref]
    · simp only [log_decref]

theorem cmp_run_concsym (op : NOp) (x y : SymInt) (s : St)
    (hx : x.is_symbolic = false) (hy : y.is_symbolic = true)
    (hq0 : y.toSymIntNodeImplUnowned ≠ 0)
    (hrq : 0 < s.rc y.toSymIntNodeImplUnowned)
    (hq2 : y.toSymIntNodeImplUnowned < s.next) :
    SymInt.cmp op x y s =
      (evalCmp (fun b => if b = s.next + 1
          then some (.bin op s.next y.toSymIntNodeImplUnowned)
          else if b = s.next then some (.wrapLit x.data_) else s.nodes b)
          (s.next + 2) op s.next y.toSymIntNodeImplUnowned,
       { nodes := fun b => if b = s.next + 1 then none
           else if b = s.next then none else s.nodes b,
         rc := fun b => if b = s.next + 1 then 0 else if b = s.next then 0 else s.rc b,
         next := s.next + 2,
         log := .boolCall (s.next + 1) :: .opCall op :: .wrapCall y.toSymIntNodeImplUnowned x.data_ :: s.log }) := by
  have hguard : (!x.is_symbolic && !y.is_symbolic) = false := by simp [hy]
  simp only [SymInt.cmp, hguard, Bool.false_eq_true, if_false, ite_false,
    scalarCopy, scalarDestroy, hy, hx, if_true, ite_true]
  rw [normalize_run_concsym x y _ hx hy hq0]
  · simp only [nodeBin, allocNode, pushLog, boolForce, boolVal, next_incref, nodes_incref, log_incref, eq_self_iff_true, if_true, ite_true]
    refine congrArg₂ Prod.mk ?_ ?_
    · rfl
    · refine St.ext ?_ ?_ ?_ ?_
      · funext b
        simp only [nodes_decref, nodes_incref, rc_incref, rc_decref]
        split_ifs <;> first | rfl | omega
      · funext b
        simp only [rc_incref, rc_decref]
        split_ifs <;> omega
      · simp only [next_decref, next_incref]
      · simp only [log_decref, log_incref]
  · simp only [next_incref]
    exact hq2

theorem neg_run_sym (x : SymInt) (s : St)
    (hx : x.is_symbolic = true)
    (hrp : 0 < s.rc x.toSymIntNodeImplUnowned)
    (hp2 : x.toSymIntNodeImplUnowned < s.next) :
    SymInt.neg x s =
      (SymInt.toSymInt s.next,
       { nodes := fun b => if b = s.next then some (.un .neg x.toSymIntNodeImplUnowned)
           else s.nodes b,
         rc := fun b => if b = s.next then 1 else s.rc b,
         next := s.next + 1,
         log := .opCall .neg :: s.log }) := by
  simp only [SymInt.neg, scalarCopy, scalarDestroy, toNode, SymInt.toSymIntNodeImpl,
    hx, if_true, ite_true, Option.getD_some, nodeUn, allocNode, pushLog,
    next_incref, nodes_incref, log_incref]
  refine congrArg (Prod.mk _) ?_
  refine St.ext ?_ ?_ ?_ ?_
  · funext b
    simp only [nodes_decref, nodes_incref, rc_incref, rc_decref]
    split_ifs <;> first | rfl | omega
  · funext b
    simp only [rc_incref, rc_decref]
    split_ifs <;> omega
  · simp only [next_decref, next_incref]
  · simp only [log_decref, log_incref]


/-- A client program over the scalar layer (the "sequence of scalar
operations" of the spec's reference-count discipline property): `copy` pushes
a copy of scalar `i`; `drop` destroys scalar `i` and removes it from the
environment; `lit` pushes a scalar constructed from a literal; `arith` pushes
the result of a binary arithmetic operator on scalars `i` and `j`; `negate`
pushes the unary negation of scalar `i`; `cmp` runs a comparison operator and
discards the boolean; `cmpNe` runs `operator!=`.  Out-of-range indices
denote the concrete scalar `0`. -/
inductive SOp where
  | copy (i : Nat)
  | drop (i : Nat)
  | lit (v : Int)
  | arith (op : NOp) (i j : Nat)
  | negate (i : Nat)
  | cmp (op : NOp) (i j : Nat)
  | cmpNe (i j : Nat)
deriving DecidableEq, Repr

/-- One client step.  A concrete-path construction whose resulting word would
collide with the discriminant pattern is refused (spec invariant I1: the
literal constructor asserts the value is representable; the aborted program
has no further state). -/
def step (o : SOp) (es : List SymInt × St) : List SymInt × St :=
  match o with
  | .copy i =>
    let x := es.1.getD i default
    (es.1 ++ [x], scalarCopy x es.2)
  | .drop i =>
    (es.1.eraseIdx i, scalarDestroy (es.1.getD i default) es.2)
  | .lit v =>
    let x : SymInt := ⟨wrap64 v⟩
    if x.is_symbolic then es else (es.1 ++ [x], es.2)
  | .arith op i j =>
    let x := es.1.getD i default
    let y := es.1.getD j default
    let (z, s') := SymInt.binArith op x y es.2
    if z.is_symbolic = (x.is_symbolic || y.is_symbolic) then (es.1 ++ [z], s') else es
  | .negate i =>
    let x := es.1.getD i default
    let (z, s') := SymInt.neg x es.2
    if z.is_symbolic = x.is_symbolic then (es.1 ++ [z], s') else es
  | .cmp op i j =>
    (es.1, (SymInt.cmp op (es.1.getD i default) (es.1.getD j default) es.2).2)
  | .cmpNe i j =>
    (es.1, (SymInt.ne (es.1.getD i default) (es.1.getD j default) es.2).2)

/-- Run a client program. -/
def runOps (ops : List SOp) (es : List SymInt × St) : List SymInt × St :=
  ops.foldl (fun es o => step o es) es

/-- Number of reference-count units scalar `x` owns on node `a` (1 when its
word packs `a`, else 0). -/
def refHits (x : SymInt) (a : Nat) : Nat :=
  if x.is_symbolic ∧ x.toSymIntNodeImplUnowned = a then 1 else 0

/-- Number of reference-count units the environment owns on node `a`. -/
def countRefs (env : List SymInt) (a : Nat) : Nat := (env.map (refHits · a)).sum

/-- The reference-count accounting invariant of the scalar layer over
baseline `B` (the units held by owners outside the environment, fixed for
the whole run): every node's count is its baseline plus the number of
environment scalars packing it; a node is live exactly while its count is
positive; no baseline unit exists at an unallocated address; every
environment scalar packs a valid non-null allocated address. -/
structure Inv (B : Nat → Nat) (env : List SymInt) (s : St) : Prop where
  rc_eq : ∀ a, s.rc a = B a + countRefs env a
  live : ∀ a, s.nodes a = none ↔ s.rc a = 0
  base_fresh : ∀ a, s.next ≤ a → B a = 0
  bounded : ∀ x ∈ env, x.is_symbolic = true →
      0 < x.toSymIntNodeImplUnowned ∧ x.toSymIntNodeImplUnowned < s.next
  next_pos : 0 < s.next

theorem is_symbolic_default : (default : SymInt).is_symbolic = false := by
  simp [default, SymInt.is_symbolic, u64]

theorem getD_symbolic_mem (env : List SymInt) (i : Nat)
    (h : (env.getD i default).is_symbolic = true) : env.getD i default ∈ env := by
  by_cases hi : i < env.length
  · rw [List.getD_eq_getElem _ _ hi]
    exact List.getElem_mem hi
  · rw [List.getD_eq_default _ _ (Nat.le_of_not_lt hi)] at h
    rw [is_symbolic_default] at h
    cases h

theorem countRefs_append (env : List SymInt) (x : SymInt) (a : Nat) :
    countRefs (env ++ [x]) a = countRefs env a + refHits x a := by
  simp [countRefs]

theorem countRefs_cons (x : SymInt) (env : List SymInt) (a : Nat) :
    countRefs (x :: env) a = refHits x a + countRefs env a := by
  simp [countRefs]

theorem countRefs_eraseIdx (env : List SymInt) (i : Nat) (hi : i < env.length) (a : Nat) :
    countRefs (env.eraseIdx i) a + refHits (env.getD i default) a = countRefs env a := by
  induction env generalizing i with
  | nil => simp at hi
  | cons hd tl ih =>
    cases i with
    | zero => simp [countRefs_cons]; omega
    | succ n =>
      simp only [List.eraseIdx_cons_succ, countRefs_cons, List.getD_cons_succ]
      have := ih n (by simpa using hi) 
      omega

theorem countRefs_pos_of_mem (env : List SymInt) (x : SymInt) (hx : x ∈ env)
    (hs : x.is_symbolic = true) (a : Nat) (ha : x.toSymIntNodeImplUnowned = a) :
    0 < countRefs env a := by
  induction env with
  | nil => cases hx
  | cons hd tl ih =>
    rw [countRefs_cons]
    rcases List.mem_cons.mp hx with h | h
    · subst h
      simp [refHits, hs, ha]
    · have := ih h
      omega


theorem countRefs_zero_high (env : List SymInt) (next a : Nat)
    (hb : ∀ x ∈ env, x.is_symbolic = true →
      0 < x.toSymIntNodeImplUnowned ∧ x.toSymIntNodeImplUnowned < next)
    (ha : next ≤ a) : countRefs env a = 0 := by
  induction env with
  | nil => rfl
  | cons hd tl ih =>
    rw [countRefs_cons]
    have h2 : refHits hd a = 0 := by
      unfold refHits
      split_ifs with hc
      · rcases hc with ⟨h1, h2⟩
        have := hb hd (by simp) h1
        omega
      · rfl
    have h3 := ih (fun x hx hs => hb x (by simp [hx]) hs)
    omega

theorem refHits_toSymInt (r a : Nat) (hr : r < 2 ^ 62) :
    refHits (SymInt.toSymInt r) a = if a = r then 1 else 0 := by
  unfold refHits
  simp only [is_symbolic_toSymInt, unowned_toSymInt r hr, true_and]
  split_ifs <;> omega

theorem refHits_concrete (x : SymInt) (a : Nat) (hx : x.is_symbolic = false) :
    refHits x a = 0 := by
  simp [refHits, hx]

theorem refHits_symbolic (x : SymInt) (a : Nat) (hx : x.is_symbolic = true) :
    refHits x a = if a = x.toSymIntNodeImplUnowned then 1 else 0 := by
  unfold refHits
  simp only [hx, true_and]
  split_ifs <;> omega

/-- Exchange: a unit held in the baseline becomes the unit of a new
environment scalar (no state change). -/
theorem inv_base_to_env (B : Nat → Nat) (env : List SymInt) (s : St) (x : SymInt)
    (hxs : x.is_symbolic = true)
    (hp0 : 0 < x.toSymIntNodeImplUnowned) (hpn : x.toSymIntNodeImplUnowned < s.next)
    (h : Inv (fun a => if a = x.toSymIntNodeImplUnowned then B a + 1 else B a) env s) :
    Inv B (env ++ [x]) s := by
  refine ⟨?_, h.live, ?_, ?_, h.next_pos⟩
  · intro a
    have h1 := h.rc_eq a
    rw [countRefs_append, refHits_symbolic x a hxs]
    by_cases hc : a = x.toSymIntNodeImplUnowned
    · subst hc
      simp only [eq_self_iff_true, if_true, ite_true] at h1 ⊢
      omega
    · simp only [if_neg hc] at h1 ⊢
      omega
  · intro a ha
    have h3 := h.base_fresh a ha
    by_cases hc : a = x.toSymIntNodeImplUnowned
    · subst hc
      simp only [eq_self_iff_true, if_true, ite_true] at h3
      omega
    · simpa only [if_neg hc] using h3
  · intro y hy hys
    rcases List.mem_append.mp hy with h1 | h1
    · exact h.bounded y h1 hys
    · rw [List.mem_singleton] at h1
      subst h1
      exact ⟨hp0, hpn⟩

/-- Exchange: the unit of an environment scalar being removed moves into the
baseline (no state change). -/
theorem inv_env_to_base (B : Nat → Nat) (env : List SymInt) (s : St) (i : Nat)
    (hi : i < env.length) (hxs : (env.getD i default).is_symbolic = true)
    (h : Inv B env s) :
    Inv (fun a => if a = (env.getD i default).toSymIntNodeImplUnowned then B a + 1 else B a)
      (env.eraseIdx i) s := by
  refine ⟨?_, h.live, ?_, ?_, h.next_pos⟩
  · intro a
    have h1 := h.rc_eq a
    have h2 := countRefs_eraseIdx env i hi a
    rw [refHits_symbolic _ a hxs] at h2
    by_cases hc : a = (env.getD i default).toSymIntNodeImplUnowned
    · subst hc
      simp only [eq_self_iff_true, if_true, ite_true] at h2 ⊢
      omega
    · simp only [if_neg hc] at h2 ⊢
      omega
  · intro a ha
    have h3 := h.base_fresh a ha
    have hb := h.bounded _ (getD_symbolic_mem env i hxs) hxs
    have hc : a ≠ (env.getD i default).toSymIntNodeImplUnowned := by omega
    simp only [if_neg hc]
    exact h3
  · intro y hy hys
    exact h.bounded y (List.mem_of_mem_eraseIdx hy) hys

/-- Adding an external unit: `incref` matches a baseline increment. -/
theorem inv_incref_base (B : Nat → Nat) (env : List SymInt) (s : St) (q : Nat)
    (h : Inv B env s) (h2 : q < s.next) (hq : 0 < s.rc q) :
    Inv (fun a => if a = q then B a + 1 else B a) env (incref q s) := by
  refine ⟨?_, ?_, ?_, ?_, ?_⟩
  · intro a
    rw [rc_incref]
    have h1 := h.rc_eq a
    by_cases hc : a = q
    · subst hc
      simp only [eq_self_iff_true, if_true, ite_true]
      omega
    · simp only [if_neg hc]
      omega
  · intro a
    rw [rc_incref]
    show s.nodes a = none ↔ _
    rw [h.live a]
    by_cases hc : a = q
    · subst hc
      simp only [eq_self_iff_true, if_true, ite_true]
      omega
    · simp only [if_neg hc]
  · intro a ha
    rw [next_incref] at ha
    have h3 := h.base_fresh a ha
    have hc : a ≠ q := by omega
    simp only [if_neg hc]
    exact h3
  · intro x hx hs
    rw [next_incref]
    exact h.bounded x hx hs
  · rw [next_incref]
    exact h.next_pos

/-- Releasing an external unit: `decref` matches a baseline decrement. -/
theorem inv_decref_base (B : Nat → Nat) (env : List SymInt) (s : St) (q : Nat)
    (h : Inv (fun a => if a = q then B a + 1 else B a) env s) :
    Inv B env (decref q s) := by
  have hq : 0 < s.rc q := by
    have h1 := h.rc_eq q
    simp only [eq_self_iff_true, if_true, ite_true] at h1
    omega
  refine ⟨?_, ?_, ?_, ?_, ?_⟩
  · intro a
    rw [rc_decref]
    have h1 := h.rc_eq a
    by_cases hc : a = q
    · subst hc
      simp only [eq_self_iff_true, if_true, ite_true] at h1 ⊢
      omega
    · simp only [if_neg hc] at h1 ⊢
      omega
  · intro a
    rw [rc_decref, nodes_decref]
    have hl := h.live a
    by_cases hc : a = q
    · subst hc
      by_cases hr : s.rc a = 1
      · simp [hr]
      · simp only [eq_self_iff_true, true_and, hr, if_false, ite_false, if_true, ite_true]
        rw [hl]
        omega
    · have hcond : ¬(a = q ∧ s.rc q = 1) := fun hh => hc hh.1
      simp only [if_neg hcond, if_neg hc]
      exact hl
  · intro a ha
    rw [next_decref] at ha
    have h3 := h.base_fresh a ha
    by_cases hc : a = q
    · subst hc
      simp only [eq_self_iff_true, if_true, ite_true] at h3
      omega
    · simpa only [if_neg hc] using h3
  · intro x hx hs
    rw [next_decref]
    exact h.bounded x hx hs
  · rw [next_decref]
    exact h.next_pos

theorem step_copy_preserves (B : Nat → Nat) (env : List SymInt) (s : St) (i : Nat)
    (h : Inv B env s) :
    Inv B (step (.copy i) (env, s)).1 (step (.copy i) (env, s)).2 := by
  simp only [step]
  by_cases hs : (env.getD i default).is_symbolic = true
  · have hmem := getD_symbolic_mem env i hs
    have hb := h.bounded _ hmem hs
    have hrc : 0 < s.rc (env.getD i default).toSymIntNodeImplUnowned := by
      have h1 := h.rc_eq (env.getD i default).toSymIntNodeImplUnowned
      have h2 := countRefs_pos_of_mem env _ hmem hs _ rfl
      omega
    simp only [scalarCopy, hs, if_true, ite_true]
    exact inv_base_to_env B env _ _ hs (by simpa [next_incref] using hb.1)
      (by simpa [next_incref] using hb.2)
      (inv_incref_base B env s _ h hb.2 hrc)
  · have hs' : (env.getD i default).is_symbolic = false := by
      cases hbb : (env.getD i default).is_symbolic
      · rfl
      · exact absurd hbb hs
    simp only [scalarCopy, hs', Bool.false_eq_true, if_false, ite_false]
    refine ⟨?_, h.live, h.base_fresh, ?_, h.next_pos⟩
    · intro a
      rw [countRefs_append, refHits_concrete _ a hs']
      have h1 := h.rc_eq a
      omega
    · intro y hy hys
      rcases List.mem_append.mp hy with h1 | h1
      · exact h.bounded y h1 hys
      · rw [List.mem_singleton] at h1
        subst h1
        rw [hys] at hs'
        cases hs'

theorem step_drop_preserves (B : Nat → Nat) (env : List SymInt) (s : St) (i : Nat)
    (h : Inv B env s) :
    Inv B (step (.drop i) (env, s)).1 (step (.drop i) (env, s)).2 := by
  simp only [step]
  by_cases hi : i < env.length
  · by_cases hs : (env.getD i default).is_symbolic = true
    · simp only [scalarDestroy, hs, if_true, ite_true]
      exact inv_decref_base B _ s _ (inv_env_to_base B env s i hi hs h)
    · have hs' : (env.getD i default).is_symbolic = false := by
        cases hbb : (env.getD i default).is_symbolic
        · rfl
        · exact absurd hbb hs
      simp only [scalarDestroy, hs', Bool.false_eq_true, if_false, ite_false]
      have hcr := countRefs_eraseIdx env i hi
      refine ⟨?_, h.live, h.base_fresh, ?_, h.next_pos⟩
      · intro a
        have h1 := h.rc_eq a
        have h2 := hcr a
        rw [refHits_concrete _ a hs'] at h2
        omega
      · intro y hy hys
        exact h.bounded y (List.mem_of_mem_eraseIdx hy) hys
  · have hxd : env.getD i default = default :=
      List.getD_eq_default _ _ (Nat.le_of_not_lt hi)
    have he : env.eraseIdx i = env := List.eraseIdx_of_length_le (Nat.le_of_not_lt hi)
    rw [he, hxd]
    simp only [scalarDestroy, is_symbolic_default, Bool.false_eq_true, if_false, ite_false]
    exact h

theorem step_lit_preserves (B : Nat → Nat) (env : List SymInt) (s : St) (v : Int)
    (h : Inv B env s) :
    Inv B (step (.lit v) (env, s)).1 (step (.lit v) (env, s)).2 := by
  simp only [step]
  split_ifs with hc
  · exact h
  · show Inv B (env ++ [SymInt.mk (wrap64 v)]) s
    have hs' : (SymInt.mk (wrap64 v)).is_symbolic = false := by
      cases hbb : (SymInt.mk (wrap64 v)).is_symbolic
      · rfl
      · exact absurd hbb hc
    refine ⟨?_, h.live, h.base_fresh, ?_, h.next_pos⟩
    · intro a
      rw [countRefs_append, refHits_concrete _ a hs']
      have h1 := h.rc_eq a
      omega
    · intro y hy hys
      rcases List.mem_append.mp hy with h1 | h1
      · exact h.bounded y h1 hys
      · rw [List.mem_singleton] at h1
        subst h1
        rw [hys] at hs'
        cases hs'


theorem not_symbolic_false (x : SymInt) (h : ¬ x.is_symbolic = true) :
    x.is_symbolic = false := by
  cases hb : x.is_symbolic
  · rfl
  · exact absurd hb h

theorem env_sym_facts (B : Nat → Nat) (env : List SymInt) (s : St) (x : SymInt)
    (h : Inv B env s) (hmem : x ∈ env) (hs : x.is_symbolic = true) :
    0 < x.toSymIntNodeImplUnowned ∧ x.toSymIntNodeImplUnowned < s.next ∧
      0 < s.rc x.toSymIntNodeImplUnowned := by
  have hb := h.bounded x hmem hs
  have h1 := h.rc_eq x.toSymIntNodeImplUnowned
  have h2 := countRefs_pos_of_mem env x hmem hs _ rfl
  exact ⟨hb.1, hb.2, by omega⟩

/-- Appending a freshly packed scalar owning a freshly allocated node
preserves the invariant (the shape every symbolic-path operator result
takes): below the old allocation cursor nothing changed, at `r` sits the new
node with one unit (owned by the pushed scalar), and any other address at or
above the old cursor is either untouched or freed scratch. -/
theorem inv_push_fresh (B : Nat → Nat) (env : List SymInt) (s : St)
    (r : Nat) (e : NodeExpr) (s' : St) (h : Inv B env s)
    (hr_lo : s.next ≤ r) (hr_hi : r < s'.next) (hr62 : r < 2 ^ 62)
    (hnext : s.next ≤ s'.next)
    (hnr : s'.nodes r = some e) (hrr : s'.rc r = 1)
    (hlow : ∀ a, a < s.next → s'.nodes a = s.nodes a ∧ s'.rc a = s.rc a)
    (hhigh : ∀ a, s.next ≤ a → a ≠ r →
      (s'.nodes a = s.nodes a ∧ s'.rc a = s.rc a) ∨ (s'.nodes a = none ∧ s'.rc a = 0)) :
    Inv B (env ++ [SymInt.toSymInt r]) s' := by
  have hcz : ∀ a, s.next ≤ a → countRefs env a = 0 :=
    fun a ha => countRefs_zero_high env s.next a h.bounded ha
  have hrz : ∀ a, s.next ≤ a → s.rc a = 0 := by
    intro a ha
    have := h.rc_eq a
    have := hcz a ha
    have := h.base_fresh a ha
    omega
  refine ⟨?_, ?_, ?_, ?_, ?_⟩
  · intro a
    rw [countRefs_append, refHits_toSymInt r a hr62]
    have h1 := h.rc_eq a
    by_cases hc : a = r
    · subst hc
      simp only [eq_self_iff_true, if_true, ite_true, hrr]
      have := hcz a hr_lo
      have := h.base_fresh a hr_lo
      omega
    · simp only [if_neg hc]
      by_cases hlt : a < s.next
      · have := (hlow a hlt).2
        omega
      · have hz := hrz a (by omega)
        rcases hhigh a (by omega) hc with ⟨_, h2⟩ | ⟨_, h2⟩ <;> rw [h2] <;> omega
  · intro a
    by_cases hc : a = r
    · subst hc
      rw [hnr, hrr]
      constructor
      · intro hh
        cases hh
      · intro hh
        cases hh
    · by_cases hlt : a < s.next
      · rw [(hlow a hlt).1, (hlow a hlt).2]
        exact h.live a
      · rcases hhigh a (by omega) hc with ⟨h1, h2⟩ | ⟨h1, h2⟩ <;> rw [h1, h2]
        · exact h.live a
        · simp
  · intro a ha
    exact h.base_fresh a (by omega)
  · intro y hy hys
    rcases List.mem_append.mp hy with h1 | h1
    · have hb := h.bounded y h1 hys
      exact ⟨hb.1, by omega⟩
    · rw [List.mem_singleton] at h1
      subst h1
      rw [unowned_toSymInt r hr62]
      have := h.next_pos
      exact ⟨by omega, hr_hi⟩
  · have := h.next_pos
    omega

/-- A state change that, at or above the old allocation cursor, only leaves
or clears scratch nodes (wrap temporaries, comparison nodes) and below it
changes nothing, preserves the invariant with the environment unchanged. -/
theorem inv_scratch (B : Nat → Nat) (env : List SymInt) (s : St) (s' : St)
    (h : Inv B env s)
    (hnext : s.next ≤ s'.next)
    (hlow : ∀ a, a < s.next → s'.nodes a = s.nodes a ∧ s'.rc a = s.rc a)
    (hhigh : ∀ a, s.next ≤ a →
      (s'.nodes a = s.nodes a ∧ s'.rc a = s.rc a) ∨ (s'.nodes a = none ∧ s'.rc a = 0)) :
    Inv B env s' := by
  have hcz : ∀ a, s.next ≤ a → countRefs env a = 0 :=
    fun a ha => countRefs_zero_high env s.next a h.bounded ha
  have hrz : ∀ a, s.next ≤ a → s.rc a = 0 := by
    intro a ha
    have := h.rc_eq a
    have := hcz a ha
    have := h.base_fresh a ha
    omega
  refine ⟨?_, ?_, ?_, ?_, ?_⟩
  · intro a
    have h1 := h.rc_eq a
    by_cases hlt : a < s.next
    · rw [(hlow a hlt).2]
      omega
    · rcases hhigh a (by omega) with ⟨_, h2⟩ | ⟨_, h2⟩ <;> rw [h2]
      · omega
      · have := hrz a (by omega)
        have := hcz a (by omega)
        have := h.base_fresh a (by omega)
        omega
  · intro a
    by_cases hlt : a < s.next
    · rw [(hlow a hlt).1, (hlow a hlt).2]
      exact h.live a
    · rcases hhigh a (by omega) with ⟨h1, h2⟩ | ⟨h1, h2⟩ <;> rw [h1, h2]
      · exact h.live a
      · simp
  · intro a ha
    exact h.base_fresh a (by omega)
  · intro y hy hys
    have hb := h.bounded y hy hys
    exact ⟨hb.1, by omega⟩
  · have := h.next_pos
    omega


theorem binConc_run (op : NOp) (x y : SymInt) (s : St)
    (hx : x.is_symbolic = false) (hy : y.is_symbolic = false) :
    SymInt.binArith op x y s = (⟨binConc op x.data_ y.data_⟩, s) := by
  simp [SymInt.binArith, hx, hy]

theorem step_arith_preserves (B : Nat → Nat) (env : List SymInt) (s : St)
    (op : NOp) (i j : Nat) (h : Inv B env s) (hroom : s.next + 1 < 2 ^ 62) :
    Inv B (step (.arith op i j) (env, s)).1 (step (.arith op i j) (env, s)).2 := by
  simp only [step]
  by_cases hx : (env.getD i default).is_symbolic = true
  · by_cases hy : (env.getD j default).is_symbolic = true
    · obtain ⟨hp1, hp2, hp3⟩ := env_sym_facts B env s _ h (getD_symbolic_mem env i hx) hx
      obtain ⟨hq1, hq2, hq3⟩ := env_sym_facts B env s _ h (getD_symbolic_mem env j hy) hy
      rw [binArith_run_symsym op _ _ s hx hy (by omega) (by omega) hp3 hq3 hp2 hq2]
      simp only [is_symbolic_toSymInt, hx, hy, Bool.or_self, eq_self_iff_true, if_true,
        ite_true]
      refine inv_push_fresh B env s s.next _ _ h le_rfl (Nat.lt_succ_self _) (by omega)
        (Nat.le_succ _) (by simp; rfl) (by simp) ?_ ?_
      · intro a ha
        constructor <;> simp [Nat.ne_of_lt ha]
      · intro a ha hne
        exact Or.inl ⟨by simp [hne], by simp [hne]⟩
    · have hy' := not_symbolic_false _ hy
      obtain ⟨hp1, hp2, hp3⟩ := env_sym_facts B env s _ h (getD_symbolic_mem env i hx) hx
      rw [binArith_run_symconc op _ _ s hx hy' (by omega) hp3 hp2]
      simp only [is_symbolic_toSymInt, hx, hy', Bool.true_or, eq_self_iff_true, if_true,
        ite_true]
      refine inv_push_fresh B env s (s.next + 1) _ _ h (Nat.le_succ _) (Nat.lt_succ_self _)
        (by omega) (Nat.le_add_right _ 2) (by simp; rfl) (by simp) ?_ ?_
      · intro a ha
        constructor <;> simp [show a ≠ s.next + 1 by omega, Nat.ne_of_lt ha]
      · intro a ha hne
        by_cases hc : a = s.next
        · subst hc
          exact Or.inr ⟨by simp [hne], by simp [hne]⟩
        · exact Or.inl ⟨by simp [hne, hc], by simp [hne, hc]⟩
  · have hx' := not_symbolic_false _ hx
    by_cases hy : (env.getD j default).is_symbolic = true
    · obtain ⟨hq1, hq2, hq3⟩ := env_sym_facts B env s _ h (getD_symbolic_mem env j hy) hy
      rw [binArith_run_concsym op _ _ s hx' hy (by omega) hq3 hq2]
      simp only [is_symbolic_toSymInt, hx', hy, Bool.or_true, eq_self_iff_true, if_true,
        ite_true]
      refine inv_push_fresh B env s (s.next + 1) _ _ h (Nat.le_succ _) (Nat.lt_succ_self _)
        (by omega) (Nat.le_add_right _ 2) (by simp; rfl) (by simp) ?_ ?_
      · intro a ha
        constructor <;> simp [show a ≠ s.next + 1 by omega, Nat.ne_of_lt ha]
      · intro a ha hne
        by_cases hc : a = s.next
        · subst hc
          exact Or.inr ⟨by simp [hne], by simp [hne]⟩
        · exact Or.inl ⟨by simp [hne, hc], by simp [hne, hc]⟩
    · have hy' := not_symbolic_false _ hy
      rw [binConc_run op _ _ s hx' hy']
      simp only [hx', hy', Bool.or_self]
      split_ifs with hc
      · show Inv B (env ++ [SymInt.mk (binConc op _ _)]) s
        have hzf : (SymInt.mk (binConc op (env.getD i default).data_
            (env.getD j default).data_)).is_symbolic = false := hc
        refine ⟨?_, h.live, h.base_fresh, ?_, h.next_pos⟩
        · intro a
          rw [countRefs_append, refHits_concrete _ a hzf]
          have h1 := h.rc_eq a
          omega
        · intro y hmy hys
          rcases List.mem_append.mp hmy with h1 | h1
          · exact h.bounded y h1 hys
          · rw [List.mem_singleton] at h1
            subst h1
            rw [hys] at hzf
            cases hzf
      · exact h


theorem neg_run_conc (x : SymInt) (s : St) (hx : x.is_symbolic = false) :
    SymInt.neg x s = (⟨wrap64 (-x.data_)⟩, s) := by
  simp [SymInt.neg, scalarCopy, scalarDestroy, hx]

theorem step_negate_preserves (B : Nat → Nat) (env : List SymInt) (s : St)
    (i : Nat) (h : Inv B env s) (hroom : s.next + 1 < 2 ^ 62) :
    Inv B (step (.negate i) (env, s)).1 (step (.negate i) (env, s)).2 := by
  simp only [step]
  by_cases hx : (env.getD i default).is_symbolic = true
  · obtain ⟨hp1, hp2, hp3⟩ := env_sym_facts B env s _ h (getD_symbolic_mem env i hx) hx
    rw [neg_run_sym _ s hx hp3 hp2]
    simp only [is_symbolic_toSymInt, hx, eq_self_iff_true, if_true, ite_true]
    refine inv_push_fresh B env s s.next _ _ h le_rfl (Nat.lt_succ_self _) (by omega)
      (Nat.le_succ _) (by simp; rfl) (by simp) ?_ ?_
    · intro a ha
      constructor <;> simp [Nat.ne_of_lt ha]
    · intro a ha hne
      exact Or.inl ⟨by simp [hne], by simp [hne]⟩
  · have hx' := not_symbolic_false _ hx
    rw [neg_run_conc _ s hx']
    simp only [hx']
    split_ifs with hc
    · show Inv B (env ++ [SymInt.mk (wrap64 (-(env.getD i default).data_))]) s
      refine ⟨?_, h.live, h.base_fresh, ?_, h.next_pos⟩
      · intro a
        rw [countRefs_append, refHits_concrete _ a hc]
        have h1 := h.rc_eq a
        omega
      · intro y hmy hys
        rcases List.mem_append.mp hmy with h1 | h1
        · exact h.bounded y h1 hys
        · rw [List.mem_singleton] at h1
          subst h1
          rw [hys] at hc
          cases hc
    · exact h

theorem cmpConc_run (op : NOp) (x y : SymInt) (s : St)
    (hx : x.is_symbolic = false) (hy : y.is_symbolic = false) :
    SymInt.cmp op x y s = (cmpConc op x.data_ y.data_, s) := by
  simp [SymInt.cmp, hx, hy]

/-- Running any comparison operator leaves the invariant intact with the
environment unchanged. -/
theorem inv_cmp_preserves (B : Nat → Nat) (op : NOp) (x y : SymInt)
    (env : List SymInt) (s : St) (h : Inv B env s) (hroom : s.next + 1 < 2 ^ 62)
    (hx : x.is_symbolic = true → x ∈ env) (hy : y.is_symbolic = true → y ∈ env) :
    Inv B env (SymInt.cmp op x y s).2 := by
  by_cases hxs : x.is_symbolic = true
  · by_cases hys : y.is_symbolic = true
    · obtain ⟨hp1, hp2, hp3⟩ := env_sym_facts B env s x h (hx hxs) hxs
      obtain ⟨hq1, hq2, hq3⟩ := env_sym_facts B env s y h (hy hys) hys
      rw [cmp_run_symsym op x y s hxs hys (by omega) (by omega) hp3 hq3 hp2 hq2]
      refine inv_scratch B env s _ h (Nat.le_succ _) ?_ ?_
      · intro a ha
        constructor <;> simp [Nat.ne_of_lt ha]
      · intro a ha
        by_cases hc : a = s.next
        · subst hc
          exact Or.inr ⟨by simp, by simp⟩
        · exact Or.inl ⟨by simp [hc], by simp [hc]⟩
    · have hys' := not_symbolic_false _ hys
      obtain ⟨hp1, hp2, hp3⟩ := env_sym_facts B env s x h (hx hxs) hxs
      rw [cmp_run_symconc op x y s hxs hys' (by omega) hp3 hp2]
      refine inv_scratch B env s _ h (Nat.le_add_right _ 2) ?_ ?_
      · intro a ha
        constructor <;> simp [show a ≠ s.next + 1 by omega, Nat.ne_of_lt ha]
      · intro a ha
        by_cases hc : a = s.next + 1
        · subst hc
          exact Or.inr ⟨by simp, by simp⟩
        · by_cases hc2 : a = s.next
          · subst hc2
            exact Or.inr ⟨by simp [hc], by simp [hc]⟩
          · exact Or.inl ⟨by simp [hc, hc2], by simp [hc, hc2]⟩
  · have hxs' := not_symbolic_false _ hxs
    by_cases hys : y.is_symbolic = true
    · obtain ⟨hq1, hq2, hq3⟩ := env_sym_facts B env s y h (hy hys) hys
      rw [cmp_run_concsym op x y s hxs' hys (by omega) hq3 hq2]
      refine inv_scratch B env s _ h (Nat.le_add_right _ 2) ?_ ?_
      · intro a ha
        constructor <;> simp [show a ≠ s.next + 1 by omega, Nat.ne_of_lt ha]
      · intro a ha
        by_cases hc : a = s.next + 1
        · subst hc
          exact Or.inr ⟨by simp, by simp⟩
        · by_cases hc2 : a = s.next
          · subst hc2
            exact Or.inr ⟨by simp [hc], by simp [hc]⟩
          · exact Or.inl ⟨by simp [hc, hc2], by simp [hc, hc2]⟩
    · have hys' := not_symbolic_false _ hys
      rw [cmpConc_run op x y s hxs' hys']
      exact h

theorem step_cmp_preserves (B : Nat → Nat) (env : List SymInt) (s : St)
    (op : NOp) (i j : Nat) (h : Inv B env s) (hroom : s.next + 1 < 2 ^ 62) :
    Inv B (step (.cmp op i j) (env, s)).1 (step (.cmp op i j) (env, s)).2 := by
  simp only [step]
  exact inv_cmp_preserves B op _ _ env s h hroom
    (fun hs => getD_symbolic_mem env i hs) (fun hs => getD_symbolic_mem env j hs)

theorem step_cmpNe_preserves (B : Nat → Nat) (env : List SymInt) (s : St)
    (i j : Nat) (h : Inv B env s) (hroom : s.next + 1 < 2 ^ 62) :
    Inv B (step (.cmpNe i j) (env, s)).1 (step (.cmpNe i j) (env, s)).2 := by
  simp only [step, SymInt.ne, SymInt.eq]
  by_cases hys : (env.getD j default).is_symbolic = true
  · obtain ⟨hq1, hq2, hq3⟩ := env_sym_facts B env s _ h (getD_symbolic_mem env j hys) hys
    simp only [scalarCopy, scalarDestroy, hys, if_true, ite_true]
    have h1 := inv_incref_base B env s _ h hq2 hq3
    have h2 := inv_cmp_preserves _ .eq (env.getD i default) (env.getD j default) env
      (incref (env.getD j default).toSymIntNodeImplUnowned s) h1
      (by rw [next_incref]; omega)
      (fun hs => getD_symbolic_mem env i hs) (fun hs => getD_symbolic_mem env j hs)
    exact inv_decref_base B env _ _ h2
  · have hys' := not_symbolic_false _ hys
    simp only [scalarCopy, scalarDestroy, hys', Bool.false_eq_true, if_false, ite_false]
    exact inv_cmp_preserves B .eq _ _ env s h hroom
      (fun hs => getD_symbolic_mem env i hs) (fun hs => getD_symbolic_mem env j hs)

theorem next_scalarCopy (x : SymInt) (s : St) : (scalarCopy x s).next = s.next := by
  unfold scalarCopy
  split_ifs <;> rfl

theorem next_scalarDestroy (x : SymInt) (s : St) : (scalarDestroy x s).next = s.next := by
  unfold scalarDestroy
  split_ifs <;> rfl

theorem next_toNode (x : SymInt) (s : St) : (toNode x s).2.next = s.next := by
  unfold toNode SymInt.toSymIntNodeImpl
  split_ifs <;> rfl

theorem next_normalize (a0 b0 : SymInt) (s : St) :
    (normalize_symints a0 b0 s).2.next ≤ s.next + 2 := by
  unfold normalize_symints
  by_cases ha : a0.is_symbolic = true <;> by_cases hb : b0.is_symbolic = true <;>
    simp only [ha, hb, not_symbolic_false, wrap, allocNode, pushLog, Bool.false_eq_true,
      if_false, ite_false, if_true, ite_true] <;>
    split_ifs <;>
    simp [next_incref, next_decref, next_scalarCopy, next_scalarDestroy, next_toNode] <;>
    omega

theorem next_binArith (op : NOp) (x y : SymInt) (s : St) :
    (SymInt.binArith op x y s).2.next ≤ s.next + 3 := by
  unfold SymInt.binArith
  split_ifs
  · exact Nat.le_add_right _ 3
  · have h1 := next_normalize x y (scalarCopy y s)
    have h2 := next_scalarCopy y s
    simp only [nodeBin, allocNode, pushLog, next_decref, next_scalarDestroy]
    omega

theorem next_cmp (op : NOp) (x y : SymInt) (s : St) :
    (SymInt.cmp op x y s).2.next ≤ s.next + 3 := by
  unfold SymInt.cmp
  split_ifs
  · exact Nat.le_add_right _ 3
  · have h1 := next_normalize x y (scalarCopy y s)
    have h2 := next_scalarCopy y s
    simp only [nodeBin, allocNode, pushLog, boolForce, next_decref, next_scalarDestroy]
    omega

theorem next_ne (x y : SymInt) (s : St) : (SymInt.ne x y s).2.next ≤ s.next + 3 := by
  unfold SymInt.ne SymInt.eq
  have h1 := next_cmp .eq x y (scalarCopy y s)
  have h2 := next_scalarCopy y s
  simp only [next_scalarDestroy]
  omega

theorem next_neg (x : SymInt) (s : St) : (SymInt.neg x s).2.next ≤ s.next + 1 := by
  unfold SymInt.neg
  split_ifs with hc
  · have h2 := next_scalarCopy x s
    have h3 := next_toNode x (scalarCopy x s)
    simp only [nodeUn, allocNode, pushLog, next_decref, next_scalarDestroy]
    omega
  · simp only [next_scalarDestroy, next_scalarCopy]
    omega

theorem next_step_le (o : SOp) (env : List SymInt) (s : St) :
    (step o (env, s)).2.next ≤ s.next + 3 := by
  cases o with
  | copy i => simp [step, next_scalarCopy]
  | drop i => simp [step, next_scalarDestroy]
  | lit v =>
    simp only [step]
    split_ifs <;> exact Nat.le_add_right _ 3
  | arith op i j =>
    simp only [step]
    have := next_binArith op (env.getD i default) (env.getD j default) s
    split_ifs <;> dsimp <;> omega
  | negate i =>
    simp only [step]
    have := next_neg (env.getD i default) s
    split_ifs <;> dsimp <;> omega
  | cmp op i j =>
    simp only [step]
    exact next_cmp op _ _ s
  | cmpNe i j =>
    simp only [step]
    exact next_ne _ _ s


theorem step_preserves (B : Nat → Nat) (o : SOp) (env : List SymInt) (s : St)
    (h : Inv B env s) (hroom : s.next + 1 < 2 ^ 62) :
    Inv B (step o (env, s)).1 (step o (env, s)).2 := by
  cases o with
  | copy i => exact step_copy_preserves B env s i h
  | drop i => exact step_drop_preserves B env s i h
  | lit v => exact step_lit_preserves B env s v h
  | arith op i j => exact step_arith_preserves B env s op i j h hroom
  | negate i => exact step_negate_preserves B env s i h hroom
  | cmp op i j => exact step_cmp_preserves B env s op i j h hroom
  | cmpNe i j => exact step_cmpNe_preserves B env s i j h hroom

theorem runOps_preserves (B : Nat → Nat) (ops : List SOp) (env : List SymInt) (s : St)
    (h : Inv B env s) (hroom : s.next + 3 * ops.length + 1 < 2 ^ 62) :
    Inv B (runOps ops (env, s)).1 (runOps ops (env, s)).2 := by
  induction ops generalizing env s with
  | nil => exact h
  | cons o rest ih =>
    have h1 := step_preserves B o env s h (by simp at hroom; omega)
    have h2 := next_step_le o env s
    have h3 : (step o (env, s)).2.next + 3 * rest.length + 1 < 2 ^ 62 := by
      simp [List.length_cons] at hroom
      omega
    have := ih (step o (env, s)).1 (step o (env, s)).2 h1 h3
    simpa [runOps, List.foldl_cons] using this

/-- Destroy every scalar of the environment (in order). -/
def destroyAll (env : List SymInt) (s : St) : St :=
  env.foldl (fun s x => scalarDestroy x s) s

theorem inv_tail_conc (B : Nat → Nat) (hd : SymInt) (tl : List SymInt) (s : St)
    (h : Inv B (hd :: tl) s) (hc : hd.is_symbolic = false) : Inv B tl s := by
  refine ⟨?_, h.live, h.base_fresh, ?_, h.next_pos⟩
  · intro a
    have h1 := h.rc_eq a
    rw [countRefs_cons, refHits_concrete hd a hc] at h1
    omega
  · intro y hy hys
    exact h.bounded y (List.mem_cons_of_mem hd hy) hys

theorem destroyAll_baseline (B : Nat → Nat) (env : List SymInt) (s : St)
    (h : Inv B env s) : ∀ a, (destroyAll env s).rc a = B a := by
  induction env generalizing s with
  | nil =>
    intro a
    have h1 := h.rc_eq a
    simpa [destroyAll, countRefs] using h1
  | cons hd tl ih =>
    intro a
    show (destroyAll tl (scalarDestroy hd s)).rc a = B a
    by_cases hs : hd.is_symbolic = true
    · have h1 := inv_env_to_base B (hd :: tl) s 0 (by simp) (by simpa using hs) h
      simp only [List.getD_cons_zero, List.eraseIdx_cons_zero] at h1
      have h2 := inv_decref_base B tl s _ h1
      have h3 : scalarDestroy hd s = decref hd.toSymIntNodeImplUnowned s := by
        simp [scalarDestroy, hs]
      rw [h3]
      exact ih _ h2 a
    · have h3 : scalarDestroy hd s = s := by
        simp [scalarDestroy, not_symbolic_false _ hs]
      rw [h3]
      exact ih _ (inv_tail_conc B hd tl s h (not_symbolic_false _ hs)) a


/-- Claim C2: for every symbolic node and every sequence of scalar operations
that constructs scalars holding references to it (by copying, normalizing or
operating on them) and then discards all of them, the node's reference count
returns to its pre-sequence baseline: the scalar layer neither leaks a
reference count unit nor releases one it does not own. -/
theorem claim_C2_refcount_discipline (B : Nat → Nat) (env : List SymInt) (s : St)
    (ops : List SOp) (h : Inv B env s)
    (hroom : s.next + 3 * ops.length + 1 < 2 ^ 62) (n : Nat) :
    (destroyAll (runOps ops (env, s)).1 (runOps ops (env, s)).2).rc n = B n :=
  destroyAll_baseline B _ _ (runOps_preserves B ops env s h hroom) n

/-- A concrete backend state for witnesses: one atom node at address 1 whose
reference count 2 is one external (baseline) unit plus one unit owned by the
scalar `SymInt.toSymInt 1`. -/
def stW : St :=
  { nodes := fun b => if b = 1 then some (.atom 5) else none,
    rc := fun b => if b = 1 then 2 else 0,
    next := 2,
    log := [] }

def envW : List SymInt := [SymInt.toSymInt 1]

def baseW : Nat → Nat := fun a => if a = 1 then 1 else 0

def opsW : List SOp :=
  [.copy 0, .arith .add 0 1, .cmpNe 0 2, .negate 0, .drop 2, .lit 7]

theorem invW : Inv baseW envW stW := by
  have hsym : (SymInt.toSymInt 1).is_symbolic = true := by decide
  have hdec : (SymInt.toSymInt 1).toSymIntNodeImplUnowned = 1 := by decide
  have hcr : ∀ a, countRefs envW a = if a = 1 then 1 else 0 := by
    intro a
    simp only [envW, countRefs, List.map_cons, List.map_nil, List.sum_cons, List.sum_nil,
      Nat.add_zero, refHits, hsym, hdec, true_and]
    split_ifs <;> omega
  refine ⟨?_, ?_, ?_, ?_, ?_⟩
  · intro a
    rw [hcr a]
    show (if a = 1 then 2 else 0) = (if a = 1 then 1 else 0) + _
    split_ifs <;> omega
  · intro a
    show (if a = 1 then some (NodeExpr.atom 5) else none) = none ↔
      (if a = 1 then 2 else 0) = 0
    split_ifs with hc
    · constructor
      · intro hh
        cases hh
      · intro hh
        cases hh
    · simp
  · intro a ha
    show (if a = 1 then 1 else 0) = 0
    have : stW.next = 2 := rfl
    rw [if_neg (by omega)]
  · intro x hx hxs
    have : x = SymInt.toSymInt 1 := by simpa [envW] using hx
    subst this
    rw [hdec]
    exact ⟨Nat.one_pos, Nat.lt_succ_self 1⟩
  · exact Nat.zero_lt_succ 1

theorem claim_C2_witness :
    (destroyAll (runOps opsW (envW, stW)).1 (runOps opsW (envW, stW)).2).rc 1 = 1 :=
  claim_C2_refcount_discipline baseW envW stW opsW invW (by decide) 1


/-- Claim C1 (code bug): on the concrete pair `(-7, 2)` the division operator
`SymInt::operator/` computes `data_ / sci.data_`, C++ truncating division,
and returns `-3`; floor-division — which the spec states and which the same
operator's symbolic path dispatches as `floordiv` — yields `-4`. -/
theorem claim_C1_div_truncates_on_concrete :
    (SymInt.div ⟨-7⟩ ⟨2⟩ stW).1.data_ = -3 ∧ Int.fdiv (-7) 2 = -4 := by
  constructor
  · decide
  · decide

/-- Claim C4: packing a node handle with `toSymInt` (`from_node`) and reading
it back with `toSymIntNodeImpl` (`to_node`) reconstructs the exact original
address; afterwards the scalar is still symbolic and the read produced a new
owning reference (the count grew by one — the scalar's own stored ownership
was not consumed). -/
theorem claim_C4_round_trip (n : Nat) (s : St) (hn : n < 2 ^ 62) :
    (SymInt.toSymInt n).is_symbolic = true ∧
    (SymInt.toSymInt n).toSymIntNodeImpl s = some (n, incref n s) ∧
    (incref n s).rc n = s.rc n + 1 := by
  refine ⟨is_symbolic_toSymInt n, ?_, ?_⟩
  · unfold SymInt.toSymIntNodeImpl
    rw [unowned_toSymInt n hn]
    simp [is_symbolic_toSymInt]
  · rw [rc_incref]
    simp

theorem claim_C4_witness :
    (SymInt.toSymInt 1).is_symbolic = true ∧
    (SymInt.toSymInt 1).toSymIntNodeImpl stW = some (1, incref 1 stW) ∧
    (incref 1 stW).rc 1 = stW.rc 1 + 1 :=
  claim_C4_round_trip 1 stW (by decide)

/-- Claim C5: on two concrete scalars, `+`, `-`, `*`, unary negation, `min`,
`max` and all six comparisons compute directly on the stored 64-bit words
with two's-complement wraparound, returning the plain machine result and
leaving the backend state untouched (no node constructed). -/
theorem claim_C5_concrete_fast_path (x y : SymInt) (s : St)
    (hx : x.is_symbolic = false) (hy : y.is_symbolic = false) :
    SymInt.add x y s = (⟨wrap64 (x.data_ + y.data_)⟩, s) ∧
    SymInt.sub x y s = (⟨wrap64 (x.data_ - y.data_)⟩, s) ∧
    SymInt.mul x y s = (⟨wrap64 (x.data_ * y.data_)⟩, s) ∧
    SymInt.neg x s = (⟨wrap64 (-x.data_)⟩, s) ∧
    SymInt.minOp x y s = (⟨min x.data_ y.data_⟩, s) ∧
    SymInt.maxOp x y s = (⟨max x.data_ y.data_⟩, s) ∧
    SymInt.eq x y s = (x.data_ == y.data_, s) ∧
    SymInt.ne x y s = (x.data_ != y.data_, s) ∧
    SymInt.lt x y s = (decide (x.data_ < y.data_), s) ∧
    SymInt.le x y s = (decide (x.data_ ≤ y.data_), s) ∧
    SymInt.gt x y s = (decide (y.data_ < x.data_), s) ∧
    SymInt.ge x y s = (decide (y.data_ ≤ x.data_), s) := by
  refine ⟨?_, ?_, ?_, neg_run_conc x s hx, ?_, ?_, ?_, ?_, ?_, ?_, ?_, ?_⟩
  · unfold SymInt.add
    rw [binConc_run _ x y s hx hy]
    rfl
  · unfold SymInt.sub
    rw [binConc_run _ x y s hx hy]
    rfl
  · unfold SymInt.mul
    rw [binConc_run _ x y s hx hy]
    rfl
  · unfold SymInt.minOp
    rw [binConc_run _ x y s hx hy]
    rfl
  · unfold SymInt.maxOp
    rw [binConc_run _ x y s hx hy]
    rfl
  · unfold SymInt.eq
    rw [cmpConc_run _ x y s hx hy]
    rfl
  · unfold SymInt.ne SymInt.eq
    simp only [scalarCopy, scalarDestroy, hx, hy, Bool.false_eq_true, if_false, ite_false]
    rw [cmpConc_run _ x y s hx hy]
    rfl
  · unfold SymInt.lt
    rw [cmpConc_run _ x y s hx hy]
    rfl
  · unfold SymInt.le
    rw [cmpConc_run _ x y s hx hy]
    rfl
  · unfold SymInt.gt
    rw [cmpConc_run _ x y s hx hy]
    rfl
  · unfold SymInt.ge
    rw [cmpConc_run _ x y s hx hy]
    rfl

theorem claim_C5_witness :
    (SymInt.add ⟨4⟩ ⟨6⟩ stW).1.data_ = 10 ∧ (SymInt.lt ⟨4⟩ ⟨6⟩ stW).1 = true := by
  have h := claim_C5_concrete_fast_path ⟨4⟩ ⟨6⟩ stW (by decide) (by decide)
  constructor
  · rw [h.1]
    decide
  · rw [h.2.2.2.2.2.2.2.2.1]
    decide

/-- Claim C7: comparing two concrete scalars leaves the backend state exactly
unchanged — no wrap call, no node-level comparison, no allocation, no logged
event. -/
theorem claim_C7_concrete_cmp_frame (x y : SymInt) (s : St)
    (hx : x.is_symbolic = false) (hy : y.is_symbolic = false) :
    (SymInt.eq x y s).2 = s ∧ (SymInt.ne x y s).2 = s ∧
    (SymInt.lt x y s).2 = s ∧ (SymInt.le x y s).2 = s ∧
    (SymInt.gt x y s).2 = s ∧ (SymInt.ge x y s).2 = s := by
  have h := claim_C5_concrete_fast_path x y s hx hy
  obtain ⟨-, -, -, -, -, -, h7, h8, h9, h10, h11, h12⟩ := h
  exact ⟨by rw [h7], by rw [h8], by rw [h9], by rw [h10], by rw [h11], by rw [h12]⟩

theorem claim_C7_witness :
    (SymInt.eq ⟨4⟩ ⟨6⟩ stW).2 = stW ∧ (SymInt.ne ⟨4⟩ ⟨6⟩ stW).2 = stW ∧
    (SymInt.lt ⟨4⟩ ⟨6⟩ stW).2 = stW ∧ (SymInt.le ⟨4⟩ ⟨6⟩ stW).2 = stW ∧
    (SymInt.gt ⟨4⟩ ⟨6⟩ stW).2 = stW ∧ (SymInt.ge ⟨4⟩ ⟨6⟩ stW).2 = stW :=
  claim_C7_concrete_cmp_frame ⟨4⟩ ⟨6⟩ stW (by decide) (by decide)

/-- Claim C8: `toSymIntNodeImpl` on a concrete scalar fails the
`TORCH_CHECK` (modelled as `none`) without decoding the literal's bits as an
address; on a symbolic scalar it returns a new owning handle to the decoded
node — the count at the node grows by one and nothing else in the backend
changes. -/
theorem claim_C8_to_node_guard (x : SymInt) (s : St) :
    (x.is_symbolic = false → x.toSymIntNodeImpl s = none) ∧
    (x.is_symbolic = true →
      x.toSymIntNodeImpl s =
        some (x.toSymIntNodeImplUnowned, incref x.toSymIntNodeImplUnowned s) ∧
      (incref x.toSymIntNodeImplUnowned s).rc x.toSymIntNodeImplUnowned =
        s.rc x.toSymIntNodeImplUnowned + 1 ∧
      (∀ b, b ≠ x.toSymIntNodeImplUnowned → (incref x.toSymIntNodeImplUnowned s).rc b = s.rc b) ∧
      (incref x.toSymIntNodeImplUnowned s).nodes = s.nodes ∧
      (incref x.toSymIntNodeImplUnowned s).log = s.log ∧
      (incref x.toSymIntNodeImplUnowned s).next = s.next) := by
  constructor
  · intro hx
    unfold SymInt.toSymIntNodeImpl
    simp [hx]
  · intro hx
    refine ⟨?_, ?_, ?_, nodes_incref _ s, log_incref _ s, next_incref _ s⟩
    · unfold SymInt.toSymIntNodeImpl
      simp [hx]
    · rw [rc_incref]
      simp
    · intro b hb
      rw [rc_incref]
      simp [hb]

theorem claim_C8_witness :
    (SymInt.mk 5).toSymIntNodeImpl stW = none ∧
    (SymInt.toSymInt 1).toSymIntNodeImpl stW =
      some ((SymInt.toSymInt 1).toSymIntNodeImplUnowned,
        incref (SymInt.toSymInt 1).toSymIntNodeImplUnowned stW) :=
  ⟨(claim_C8_to_node_guard ⟨5⟩ stW).1 (by decide),
   ((claim_C8_to_node_guard (SymInt.toSymInt 1) stW).2 (by decide)).1⟩


/-- Claim C10: normalization is deterministic and one-sided.  When both
operands are already symbolic it returns both existing handles unchanged and
the state differs only by the two handle increments — in particular the log
is untouched, so the wrap factory is invoked zero times.  When exactly one
operand is symbolic, exactly one `wrapCall` is recorded, with the symbolic
operand's node as receiver and the concrete operand's raw word as the
literal. -/
theorem claim_C10_normalize_one_sided (a0 b0 : SymInt) (s : St) :
    (a0.is_symbolic = true → b0.is_symbolic = true →
      a0.toSymIntNodeImplUnowned ≠ 0 → b0.toSymIntNodeImplUnowned ≠ 0 →
      normalize_symints a0 b0 s =
        ((a0.toSymIntNodeImplUnowned, b0.toSymIntNodeImplUnowned),
         incref b0.toSymIntNodeImplUnowned (incref a0.toSymIntNodeImplUnowned s))) ∧
    (a0.is_symbolic = true → b0.is_symbolic = false →
      a0.toSymIntNodeImplUnowned ≠ 0 → a0.toSymIntNodeImplUnowned < s.next →
      (normalize_symints a0 b0 s).1 = (a0.toSymIntNodeImplUnowned, s.next) ∧
      (normalize_symints a0 b0 s).2.log =
        .wrapCall a0.toSymIntNodeImplUnowned b0.data_ :: s.log) ∧
    (a0.is_symbolic = false → b0.is_symbolic = true →
      b0.toSymIntNodeImplUnowned ≠ 0 → b0.toSymIntNodeImplUnowned < s.next →
      (normalize_symints a0 b0 s).1 = (s.next, b0.toSymIntNodeImplUnowned) ∧
      (normalize_symints a0 b0 s).2.log =
        .wrapCall b0.toSymIntNodeImplUnowned a0.data_ :: s.log) := by
  refine ⟨?_, ?_, ?_⟩
  · intro ha hb hp hq
    exact normalize_run_symsym a0 b0 s ha hb hp hq
  · intro ha hb hp hp2
    rw [normalize_run_symconc a0 b0 s ha hb hp hp2]
    exact ⟨rfl, rfl⟩
  · intro ha hb hq hq2
    rw [normalize_run_concsym a0 b0 s ha hb hq hq2]
    exact ⟨rfl, rfl⟩

theorem claim_C10_witness :
    normalize_symints (SymInt.toSymInt 1) (SymInt.toSymInt 1) stW =
      ((1, 1), incref 1 (incref 1 stW)) ∧
    (normalize_symints (SymInt.toSymInt 1) ⟨3⟩ stW).1 = (1, 2) ∧
    (normalize_symints (SymInt.toSymInt 1) ⟨3⟩ stW).2.log = [.wrapCall 1 3] := by
  have h1 := (claim_C10_normalize_one_sided (SymInt.toSymInt 1) (SymInt.toSymInt 1) stW).1
    (by decide) (by decide) (by decide) (by decide)
  have h2 := (claim_C10_normalize_one_sided (SymInt.toSymInt 1) ⟨3⟩ stW).2.1
    (by decide) (by decide) (by decide) (by decide)
  refine ⟨?_, ?_, ?_⟩
  · rw [h1]
    have : (SymInt.toSymInt 1).toSymIntNodeImplUnowned = 1 := by decide
    rw [this]
  · rw [h2.1]
    have : (SymInt.toSymInt 1).toSymIntNodeImplUnowned = 1 := by decide
    rw [this]
    rfl
  · rw [h2.2]
    have : (SymInt.toSymInt 1).toSymIntNodeImplUnowned = 1 := by decide
    rw [this]
    rfl

/-- Claim C6: for each arithmetic / min / max operator, `concrete ⊕ symbolic`
and `symbolic ⊕ concrete` both produce a symbolic scalar whose backend node
is the node-level operation applied to the symbolic operand's node and a node
produced by that backend's wrap factory from the concrete literal
(`wrapCall` with the symbolic side's node as receiver), with the left/right
operand order of the scalars preserved in the node. -/
theorem claim_C6_mixed_operand_dispatch (op : NOp)
    (hop : op ∈ [NOp.add, NOp.sub, NOp.mul, NOp.floordiv, NOp.mod, NOp.min, NOp.max])
    (c x : SymInt) (s : St) (hc : c.is_symbolic = false) (hx : x.is_symbolic = true)
    (hp0 : x.toSymIntNodeImplUnowned ≠ 0) (hrp : 0 < s.rc x.toSymIntNodeImplUnowned)
    (hp2 : x.toSymIntNodeImplUnowned < s.next) (hroom : s.next + 1 < 2 ^ 62) :
    ((SymInt.binArith op x c s).1.is_symbolic = true ∧
     (SymInt.binArith op x c s).1.toSymIntNodeImplUnowned = s.next + 1 ∧
     (SymInt.binArith op x c s).2.nodes (s.next + 1) =
       some (.bin op x.toSymIntNodeImplUnowned s.next) ∧
     (SymInt.binArith op x c s).2.log =
       .opCall op :: .wrapCall x.toSymIntNodeImplUnowned c.data_ :: s.log) ∧
    ((SymInt.binArith op c x s).1.is_symbolic = true ∧
     (SymInt.binArith op c x s).1.toSymIntNodeImplUnowned = s.next + 1 ∧
     (SymInt.binArith op c x s).2.nodes (s.next + 1) =
       some (.bin op s.next x.toSymIntNodeImplUnowned) ∧
     (SymInt.binArith op c x s).2.log =
       .opCall op :: .wrapCall x.toSymIntNodeImplUnowned c.data_ :: s.log) := by
  constructor
  · rw [binArith_run_symconc op x c s hx hc hp0 hrp hp2]
    refine ⟨is_symbolic_toSymInt _, unowned_toSymInt _ (by omega), by simp, rfl⟩
  · rw [binArith_run_concsym op c x s hc hx hp0 hrp hp2]
    refine ⟨is_symbolic_toSymInt _, unowned_toSymInt _ (by omega), by simp, rfl⟩

theorem claim_C6_witness :
    (SymInt.add ⟨3⟩ (SymInt.toSymInt 1) stW).1.is_symbolic = true ∧
    (SymInt.add ⟨3⟩ (SymInt.toSymInt 1) stW).2.nodes 3 = some (.bin .add 2 1) ∧
    (SymInt.add ⟨3⟩ (SymInt.toSymInt 1) stW).2.log = [.opCall .add, .wrapCall 1 3] := by
  have h := (claim_C6_mixed_operand_dispatch .add (by decide) ⟨3⟩ (SymInt.toSymInt 1) stW
    (by decide) (by decide) (by decide) (by decide) (by decide) (by decide)).2
  have hd : (SymInt.toSymInt 1).toSymIntNodeImplUnowned = 1 := by decide
  rw [hd] at h
  exact ⟨h.1, h.2.2.1, h.2.2.2⟩


/-- Claim C3, counterexample: comparing the symbolic scalar over node 1 with
the concrete scalar 3 via `operator!=` never invokes the node-level `ne`
operation (the instrumentation log of the run contains no `ne` call), contrary
to the claim that `!=` dispatches to `ne`. -/
theorem claim_C3_counterexample :
    (SymInt.toSymInt 1).is_symbolic = true ∧
    BEvent.opCall NOp.ne ∉ (SymInt.ne (SymInt.toSymInt 1) ⟨3⟩ stW).2.log := by
  constructor
  · decide
  · decide

theorem log_scalarDestroy (x : SymInt) (s : St) : (scalarDestroy x s).log = s.log := by
  unfold scalarDestroy
  split_ifs <;> simp [log_decref]

/-- Claim C3, amended: for operands with at least one symbolic side,
`operator!=` returns the negation of `operator==` and performs exactly the
same backend interaction as `==`: the node-level `eq` operation is invoked
and its boolean-like result is coerced with `bool_()`; the node-level `ne`
operation is never invoked by the scalar layer. -/
theorem claim_C3_ne_negates_eq (x y : SymInt) (s : St)
    (hsym : x.is_symbolic = true ∨ y.is_symbolic = true)
    (hxh : x.is_symbolic = true →
      x.toSymIntNodeImplUnowned ≠ 0 ∧ x.toSymIntNodeImplUnowned < s.next ∧
        0 < s.rc x.toSymIntNodeImplUnowned)
    (hyh : y.is_symbolic = true →
      y.toSymIntNodeImplUnowned ≠ 0 ∧ y.toSymIntNodeImplUnowned < s.next ∧
        0 < s.rc y.toSymIntNodeImplUnowned) :
    (SymInt.ne x y s).1 = !(SymInt.eq x y s).1 ∧
    (SymInt.ne x y s).2.log = (SymInt.eq x y s).2.log ∧
    BEvent.opCall NOp.eq ∈ (SymInt.eq x y s).2.log ∧
    (∃ e, BEvent.boolCall e ∈ (SymInt.eq x y s).2.log) ∧
    (BEvent.opCall NOp.ne ∈ (SymInt.ne x y s).2.log → BEvent.opCall NOp.ne ∈ s.log) := by
  by_cases hx : x.is_symbolic = true
  · by_cases hy : y.is_symbolic = true
    · obtain ⟨hp0, hp2, hrp⟩ := hxh hx
      obtain ⟨hq0, hq2, hrq⟩ := hyh hy
      have houter := cmp_run_symsym .eq x y s hx hy hp0 hq0 hrp hrq hp2 hq2
      have hinner := cmp_run_symsym .eq x y (incref y.toSymIntNodeImplUnowned s) hx hy
        hp0 hq0 (by rw [rc_incref]; split_ifs <;> omega)
        (by rw [rc_incref]; split_ifs <;> omega)
        (by rw [next_incref]; exact hp2) (by rw [next_incref]; exact hq2)
      simp only [SymInt.ne, SymInt.eq, scalarCopy, hy, if_true, ite_true]
      rw [hinner, houter]
      simp only [next_incref, nodes_incref, log_incref]
      refine ⟨by simp, ?_, by simp, ⟨s.next, by simp⟩, ?_⟩
      · rw [log_scalarDestroy]
      · rw [log_scalarDestroy]
        intro hm
        simp only [List.mem_cons] at hm
        rcases hm with h | h | h
        · exact absurd h (by simp)
        · exact absurd h (by simp)
        · exact h
    · have hy' := not_symbolic_false _ hy
      obtain ⟨hp0, hp2, hrp⟩ := hxh hx
      have houter := cmp_run_symconc .eq x y s hx hy' hp0 hrp hp2
      simp only [SymInt.ne, SymInt.eq, scalarCopy, scalarDestroy, hy', Bool.false_eq_true,
        if_false, ite_false]
      rw [houter]
      refine ⟨by simp, by simp, by simp, ⟨s.next + 1, by simp⟩, ?_⟩
      · intro hm
        simp only [List.mem_cons] at hm
        rcases hm with h | h | h | h
        · exact absurd h (by simp)
        · exact absurd h (by simp)
        · exact absurd h (by simp)
        · exact h
  · have hx' := not_symbolic_false _ hx
    have hy : y.is_symbolic = true := by
      rcases hsym with h | h
      · exact absurd h hx
      · exact h
    obtain ⟨hq0, hq2, hrq⟩ := hyh hy
    have houter := cmp_run_concsym .eq x y s hx' hy hq0 hrq hq2
    have hinner := cmp_run_concsym .eq x y (incref y.toSymIntNodeImplUnowned s) hx' hy
      hq0 (by rw [rc_incref]; split_ifs <;> omega)
      (by rw [next_incref]; exact hq2)
    simp only [SymInt.ne, SymInt.eq, scalarCopy, hy, if_true, ite_true]
    rw [hinner, houter]
    simp only [next_incref, nodes_incref, log_incref]
    refine ⟨by simp, ?_, by simp, ⟨s.next + 1, by simp⟩, ?_⟩
    · rw [log_scalarDestroy]
    · rw [log_scalarDestroy]
      intro hm
      simp only [List.mem_cons] at hm
      rcases hm with h | h | h | h
      · exact absurd h (by simp)
      · exact absurd h (by simp)
      · exact absurd h (by simp)
      · exact h

theorem claim_C3_amended_witness :
    (SymInt.ne (SymInt.toSymInt 1) ⟨3⟩ stW).1 = !(SymInt.eq (SymInt.toSymInt 1) ⟨3⟩ stW).1 ∧
    BEvent.opCall NOp.eq ∈ (SymInt.eq (SymInt.toSymInt 1) ⟨3⟩ stW).2.log := by
  have h := claim_C3_ne_negates_eq (SymInt.toSymInt 1) ⟨3⟩ stW (Or.inl (by decide))
    (fun _ => by refine ⟨by decide, by decide, by decide⟩)
    (fun hc => by cases hc)
  exact ⟨h.1, h.2.2.1⟩


theorem wrap64_small (v : Int) (h1 : -(2 ^ 63) ≤ v) (h2 : v < 2 ^ 63) : wrap64 v = v := by
  unfold wrap64
  omega

theorem negNegEq_fst (x : SymInt) (s : St) :
    (negNegEq x s).1 =
      (SymInt.eq (SymInt.neg (SymInt.neg x s).1 (SymInt.neg x s).2).1 x
        (SymInt.neg (SymInt.neg x s).1 (SymInt.neg x s).2).2).1 := rfl

theorem negNegEq_concrete (x : SymInt) (s : St)
    (h1 : -(2 ^ 62) < x.data_) (h2 : x.data_ < 2 ^ 62) :
    (negNegEq x s).1 = true := by
  have hxf : x.is_symbolic = false := is_symbolic_small x.data_ h1 h2
  have hw1 : wrap64 (-x.data_) = -x.data_ := wrap64_small _ (by omega) (by omega)
  have ht1 : (SymInt.mk (wrap64 (-x.data_))).is_symbolic = false := by
    rw [hw1]
    exact is_symbolic_small _ (by omega) (by omega)
  rw [negNegEq_fst, neg_run_conc x s hxf]
  dsimp only
  rw [neg_run_conc _ s ht1]
  dsimp only
  unfold SymInt.eq
  have ht2 : (SymInt.mk (wrap64 (-(SymInt.mk (wrap64 (-x.data_))).data_))).is_symbolic
      = false := by
    show (SymInt.mk (wrap64 (-wrap64 (-x.data_)))).is_symbolic = false
    rw [hw1]
    have : wrap64 (- -x.data_) = x.data_ := by
      unfold wrap64
      omega
    rw [this]
    exact is_symbolic_small _ h1 h2
  rw [cmpConc_run .eq _ x s ht2 hxf]
  show cmpConc NOp.eq (wrap64 (-wrap64 (-x.data_))) x.data_ = true
  rw [hw1]
  have : wrap64 (- -x.data_) = x.data_ := by
    unfold wrap64
    omega
  rw [this]
  show (x.data_ == x.data_) = true
  simp


theorem negNegEq_symbolic (x : SymInt) (s : St) (v : Int)
    (hx : x.is_symbolic = true)
    (hv : s.nodes x.toSymIntNodeImplUnowned = some (.atom v))
    (hp0 : 0 < x.toSymIntNodeImplUnowned)
    (hp2 : x.toSymIntNodeImplUnowned < s.next)
    (hrp : 0 < s.rc x.toSymIntNodeImplUnowned)
    (hroom : s.next + 2 < 2 ^ 62) :
    (negNegEq x s).1 = true := by
  have hn62 : s.next < 2 ^ 62 := by omega
  have hn62b : s.next + 1 < 2 ^ 62 := by omega
  have hu1 : (SymInt.toSymInt s.next).toSymIntNodeImplUnowned = s.next :=
    unowned_toSymInt _ hn62
  have hu2 : (SymInt.toSymInt (s.next + 1)).toSymIntNodeImplUnowned = s.next + 1 :=
    unowned_toSymInt _ hn62b
  rw [negNegEq_fst, neg_run_sym x s hx hrp hp2]
  dsimp only
  have e2 := neg_run_sym (SymInt.toSymInt s.next)
    { nodes := fun b => if b = s.next
        then some (NodeExpr.un NOp.neg x.toSymIntNodeImplUnowned) else s.nodes b,
      rc := fun b => if b = s.next then 1 else s.rc b,
      next := s.next + 1,
      log := BEvent.opCall NOp.neg :: s.log }
    (is_symbolic_toSymInt _) (by rw [hu1]; simp) (by rw [hu1]; exact Nat.lt_succ_self _)
  rw [e2]
  dsimp only
  rw [hu1]
  have e3 := cmp_run_symsym .eq (SymInt.toSymInt (s.next + 1)) x
    { nodes := fun b => if b = s.next + 1 then some (NodeExpr.un NOp.neg s.next)
        else if b = s.next then some (NodeExpr.un NOp.neg x.toSymIntNodeImplUnowned)
        else s.nodes b,
      rc := fun b => if b = s.next + 1 then 1 else if b = s.next then 1 else s.rc b,
      next := s.next + 1 + 1,
      log := BEvent.opCall NOp.neg :: BEvent.opCall NOp.neg :: s.log }
    (is_symbolic_toSymInt _) hx (by rw [hu2]; omega) (by omega)
    (by rw [hu2]; simp)
    (by show (if x.toSymIntNodeImplUnowned = s.next + 1 then 1
          else if x.toSymIntNodeImplUnowned = s.next then 1
          else s.rc x.toSymIntNodeImplUnowned) > 0
        split_ifs <;> omega)
    (by rw [hu2]; exact Nat.lt_succ_self _) (by show x.toSymIntNodeImplUnowned < s.next + 1 + 1; omega)
  unfold SymInt.eq
  rw [e3]
  dsimp only
  rw [hu2]
  have hpne1 : x.toSymIntNodeImplUnowned ≠ s.next := by omega
  have hpne2 : x.toSymIntNodeImplUnowned ≠ s.next + 1 := by omega
  have hpne3 : x.toSymIntNodeImplUnowned ≠ s.next + 1 + 1 := by omega
  have hne12 : s.next + 1 ≠ s.next + 1 + 1 := by omega
  have hne02 : s.next ≠ s.next + 1 + 1 := by omega
  have hne01 : s.next ≠ s.next + 1 := by omega
  simp only [evalCmp, evalA, hpne1, hpne2, hpne3, hne12, hne02, hne01, hv,
    if_false, ite_false, if_true, ite_true, eq_self_iff_true, cmpSem, neg_neg,
    beq_self_eq_true]


/-- Claim C9: `-(-x) == x` holds for every scalar: for a concrete scalar in
the representable literal range the double negation restores the word and the
concrete equality test returns true; for a symbolic scalar over a valid node
the normalize-then-dispatch equality forces the backend boolean of
`eq(neg(neg(n)), n)`, which the instrumented backend resolves to true. -/
theorem claim_C9_neg_neg_identity (x : SymInt) (s : St) :
    (-(2 ^ 62) < x.data_ → x.data_ < 2 ^ 62 → (negNegEq x s).1 = true) ∧
    (∀ v, x.is_symbolic = true →
      s.nodes x.toSymIntNodeImplUnowned = some (.atom v) →
      0 < x.toSymIntNodeImplUnowned → x.toSymIntNodeImplUnowned < s.next →
      0 < s.rc x.toSymIntNodeImplUnowned → s.next + 2 < 2 ^ 62 →
      (negNegEq x s).1 = true) := by
  constructor
  · intro h1 h2
    exact negNegEq_concrete x s h1 h2
  · intro v hx hv hp0 hp2 hrp hroom
    exact negNegEq_symbolic x s v hx hv hp0 hp2 hrp hroom

theorem claim_C9_witness :
    (negNegEq ⟨7⟩ stW).1 = true ∧ (negNegEq (SymInt.toSymInt 1) stW).1 = true :=
  ⟨(claim_C9_neg_neg_identity ⟨7⟩ stW).1 (by decide) (by decide),
   (claim_C9_neg_neg_identity (SymInt.toSymInt 1) stW).2 5 (by decide) (by decide)
     (by decide) (by decide) (by decide) (by decide)⟩

end SymIntSpec
